import Mathlib

/-!
Verification of the batch encoder, partitioner framework, and assignment
engine of a Kafka client library core.

Bytes are modelled as `List Nat` with values in `[0, 256)`; machine
integers are modelled as `Int`/`Nat` with explicit reduction modulo the
relevant power of two at the byte boundary. Go maps are modelled as
association lists whose order stands for the (per-run) iteration order of
the map; `delete`/insert are modelled key-based, exactly as a map behaves.
-/

set_option maxHeartbeats 1000000

/-! ## Binary append primitives (the kbin encoding library) -/

/-- Big-endian bytes of an 8-bit integer (two's complement). -/
def int8be (v : Int) : List Nat :=
  [((v % 2 ^ 8).toNat)]

/-- Big-endian bytes of a 16-bit integer (two's complement). -/
def int16be (v : Int) : List Nat :=
  let u := (v % 2 ^ 16).toNat
  [u / 2 ^ 8, u % 2 ^ 8]

/-- Big-endian bytes of a 32-bit integer (two's complement). -/
def int32be (v : Int) : List Nat :=
  let u := (v % 2 ^ 32).toNat
  [u / 2 ^ 24, u / 2 ^ 16 % 2 ^ 8, u / 2 ^ 8 % 2 ^ 8, u % 2 ^ 8]

/-- Big-endian bytes of a 64-bit integer (two's complement). -/
def int64be (v : Int) : List Nat :=
  let u := (v % 2 ^ 64).toNat
  [u / 2 ^ 56, u / 2 ^ 48 % 2 ^ 8, u / 2 ^ 40 % 2 ^ 8, u / 2 ^ 32 % 2 ^ 8,
   u / 2 ^ 24 % 2 ^ 8, u / 2 ^ 16 % 2 ^ 8, u / 2 ^ 8 % 2 ^ 8, u % 2 ^ 8]

/-- `kbin.AppendInt8`. -/
def AppendInt8 (dst : List Nat) (v : Int) : List Nat := dst ++ int8be v

/-- `kbin.AppendInt16`. -/
def AppendInt16 (dst : List Nat) (v : Int) : List Nat := dst ++ int16be v

/-- `kbin.AppendInt32`. -/
def AppendInt32 (dst : List Nat) (v : Int) : List Nat := dst ++ int32be v

/-- `kbin.AppendInt64`. -/
def AppendInt64 (dst : List Nat) (v : Int) : List Nat := dst ++ int64be v

/-- `kbin.AppendArrayLen`: an array length is written as an int32. -/
def AppendArrayLen (dst : List Nat) (l : Nat) : List Nat := AppendInt32 dst (l : Int)

/-- Kafka zigzag transform of a 32-bit integer, `uint32(v)<<1 ^ uint32(v>>31)`. -/
def zigzag32 (v : Int) : Nat :=
  ((2 * v % 2 ^ 32).toNat) ^^^ (if v < 0 then 2 ^ 32 - 1 else 0)

/-- Unsigned LEB128 encoding used by `kbin.AppendVarint` after zigzagging. -/
def uleb128 (n : Nat) : List Nat :=
  if h : n < 2 ^ 7 then [n]
  else (n % 2 ^ 7 + 2 ^ 7) :: uleb128 (n / 2 ^ 7)
decreasing_by exact Nat.div_lt_self (by omega) (by omega)

/-- `kbin.AppendVarint` (signed 32-bit zigzag varint). -/
def AppendVarint (dst : List Nat) (v : Int) : List Nat := dst ++ uleb128 (zigzag32 v)

/-- `kbin.AppendVarintBytes`: nil encodes as varint -1, else varint length then bytes. -/
def AppendVarintBytes (dst : List Nat) (b : Option (List Nat)) : List Nat :=
  match b with
  | none => AppendVarint dst (-1)
  | some bs => AppendVarint dst (bs.length : Int) ++ bs

/-- `kbin.AppendVarintString`: varint length then the string's bytes. -/
def AppendVarintString (dst : List Nat) (s : List Nat) : List Nat :=
  AppendVarint dst (s.length : Int) ++ s

/-- Models `kbin.AppendInt32(dst[:at], v)`: overwrite 4 bytes of `dst` at `at`. -/
def AppendInt32At (dst : List Nat) (at_ : Nat) (v : Int) : List Nat :=
  dst.take at_ ++ int32be v ++ dst.drop (at_ + 4)

/-- Models `kbin.AppendInt16(dst[:at], v)`: overwrite 2 bytes of `dst` at `at`. -/
def AppendInt16At (dst : List Nat) (at_ : Nat) (v : Int) : List Nat :=
  dst.take at_ ++ int16be v ++ dst.drop (at_ + 2)

/-- Big-endian read of 4 bytes at position `i` (the value of a stored int32 field). -/
def readUInt32At (l : List Nat) (i : Nat) : Nat :=
  l.getD i 0 * 2 ^ 24 + l.getD (i + 1) 0 * 2 ^ 16 + l.getD (i + 2) 0 * 2 ^ 8 + l.getD (i + 3) 0

/-- Reinterpret a 32-bit unsigned value as a signed int32 (Go's `int32(u)`). -/
def toInt32 (u : Nat) : Int :=
  if u % 2 ^ 32 < 2 ^ 31 then (u % 2 ^ 32 : Int) else (u % 2 ^ 32 : Int) - 2 ^ 32

/-! ## CRC-32C (Castagnoli), the bit-level form of Go's `crc32.Checksum`
with `crc32.MakeTable(crc32.Castagnoli)` -/

/-- The reflected Castagnoli polynomial, `0x82F63B78`. -/
def crc32cPoly : Nat := 0x82F63B78

/-- One bit step of the reflected CRC: shift right, conditionally xor the polynomial. -/
def crc32cBitStep (c : Nat) : Nat :=
  if c % 2 = 1 then (c / 2) ^^^ crc32cPoly else c / 2

/-- Process one byte of input into the running CRC state. -/
def crc32cByteStep (c : Nat) (b : Nat) : Nat :=
  crc32cBitStep (crc32cBitStep (crc32cBitStep (crc32cBitStep
    (crc32cBitStep (crc32cBitStep (crc32cBitStep (crc32cBitStep (c ^^^ b % 2 ^ 8))))))))

/-- CRC-32C over a byte sequence: init `0xFFFFFFFF`, final xor `0xFFFFFFFF`. -/
def crc32c (data : List Nat) : Nat :=
  (data.foldl crc32cByteStep (2 ^ 32 - 1)) ^^^ (2 ^ 32 - 1)

/-! ## Record and batch data model (`promisedNumberedRecord`, `recordBatch`) -/

/-- One record header key/value pair (`Record.Headers` entries). -/
structure recordHeader where
  key : List Nat
  value : List Nat

/-- A numbered record, flattening `promisedNumberedRecord`'s `n` (numbers) and
`pr.r` (user record) components to the fields its encoder reads. -/
structure promisedNumberedRecord where
  lengthField : Int
  timestampDelta : Int
  offsetDelta : Int
  key : Option (List Nat)
  value : Option (List Nat)
  headers : List recordHeader

instance : Inhabited promisedNumberedRecord :=
  ⟨⟨0, 0, 0, none, none, []⟩⟩

/-- `recordBatch`, restricted to the fields read by `appendTo`. -/
structure recordBatch where
  wireLength : Int
  attrs : Int
  firstTimestamp : Int
  records : List promisedNumberedRecord

/-- A compression codec: `compress` returns `none` on soft error (Go `nil`),
and `cattrs` is the codec's attribute bits (`compressor.attrs`). -/
structure compressor where
  compress : List Nat → Option (List Nat)
  cattrs : Int

/-- `promisedNumberedRecord.appendTo`. -/
def pnrAppendTo (pnr : promisedNumberedRecord) (dst : List Nat) : List Nat :=
  let dst := AppendVarint dst pnr.lengthField
  let dst := AppendInt8 dst 0
  let dst := AppendVarint dst pnr.timestampDelta
  let dst := AppendVarint dst pnr.offsetDelta
  let dst := AppendVarintBytes dst pnr.key
  let dst := AppendVarintBytes dst pnr.value
  let dst := AppendVarint dst (pnr.headers.length : Int)
  pnr.headers.foldl (fun d h => AppendVarintBytes (AppendVarintString d h.key) (some h.value)) dst

/-- The bytes of a batch's record list (the region compression applies to). -/
def recsBytes (r : recordBatch) : List Nat :=
  r.records.foldl (fun d pnr => pnrAppendTo pnr d) []

/-- `recordBatch.appendTo` up to (but excluding) the final CRC patch: all fields
are appended, the record region is written, and on a strictly-smaller
compression outcome the region is swapped and the three length/attribute
fields are patched in place. -/
def rbEncodeBody (r : recordBatch) (dst0 : List Nat) (comp : Option compressor) : List Nat :=
  let nullableBytesLen := r.wireLength - 4
  let nullableBytesLenAt := dst0.length
  let dst := AppendInt32 dst0 nullableBytesLen
  let dst := AppendInt64 dst 0
  let batchLen := nullableBytesLen - 8 - 4
  let batchLenAt := dst.length
  let dst := AppendInt32 dst batchLen
  let dst := AppendInt32 dst (-1)
  let dst := AppendInt8 dst 2
  let dst := AppendInt32 dst 0
  let attrsAt := dst.length
  let attrs := r.attrs
  let dst := AppendInt16 dst attrs
  let dst := AppendInt32 dst ((r.records.length : Int) - 1)
  let dst := AppendInt64 dst r.firstTimestamp
  let lastRecord := r.records.getLastD default
  let dst := AppendInt64 dst (r.firstTimestamp + lastRecord.timestampDelta)
  let dst := AppendInt64 dst (-1)
  let dst := AppendInt16 dst (-1)
  let dst := AppendInt32 dst (-1)
  let dst := AppendArrayLen dst r.records.length
  let recordsAt := dst.length
  let dst := r.records.foldl (fun d pnr => pnrAppendTo pnr d) dst
  match comp with
  | none => dst
  | some c =>
    let toCompress := dst.drop recordsAt
    match c.compress toCompress with
    | none => dst
    | some compressed =>
      if compressed.length < toCompress.length then
        let dst := dst.take recordsAt ++ compressed
        let savings : Int := (toCompress.length : Int) - (compressed.length : Int)
        let dst := AppendInt32At dst nullableBytesLenAt (nullableBytesLen - savings)
        let dst := AppendInt32At dst batchLenAt (batchLen - savings)
        let dst := AppendInt16At dst attrsAt (Int.lor attrs c.cattrs)
        dst
      else dst

/-- `recordBatch.appendTo`: encode the body, then patch the CRC-32C of
everything after the checksum field into the reserved slot (`crcStart` is 21
bytes past the start of this batch's entry). -/
def recordBatchAppendTo (r : recordBatch) (dst : List Nat) (comp : Option compressor) : List Nat :=
  let pre := rbEncodeBody r dst comp
  let crcStart := dst.length + 21
  AppendInt32At pre crcStart (toInt32 (crc32c (pre.drop (crcStart + 4))))

/-! ## Structural lemmas about the append primitives -/

@[simp] lemma int8be_length (v : Int) : (int8be v).length = 1 := rfl

@[simp] lemma int16be_length (v : Int) : (int16be v).length = 2 := rfl

@[simp] lemma int32be_length (v : Int) : (int32be v).length = 4 := rfl

@[simp] lemma int64be_length (v : Int) : (int64be v).length = 8 := rfl

@[simp] lemma AppendInt8_eq (d : List Nat) (v : Int) : AppendInt8 d v = d ++ int8be v := rfl

@[simp] lemma AppendInt16_eq (d : List Nat) (v : Int) : AppendInt16 d v = d ++ int16be v := rfl

@[simp] lemma AppendInt32_eq (d : List Nat) (v : Int) : AppendInt32 d v = d ++ int32be v := rfl

@[simp] lemma AppendInt64_eq (d : List Nat) (v : Int) : AppendInt64 d v = d ++ int64be v := rfl

@[simp] lemma AppendArrayLen_eq (d : List Nat) (l : Nat) :
    AppendArrayLen d l = d ++ int32be (l : Int) := rfl

@[simp] lemma AppendVarint_eq (d : List Nat) (v : Int) :
    AppendVarint d v = d ++ uleb128 (zigzag32 v) := rfl

/-- The bytes appended by `AppendVarintBytes` beyond its destination. -/
def varintBytesOf (k : Option (List Nat)) : List Nat :=
  match k with
  | none => uleb128 (zigzag32 (-1))
  | some bs => uleb128 (zigzag32 (bs.length : Int)) ++ bs

@[simp] lemma AppendVarintBytes_eq (d : List Nat) (k : Option (List Nat)) :
    AppendVarintBytes d k = d ++ varintBytesOf k := by
  cases k <;> simp [AppendVarintBytes, varintBytesOf, List.append_assoc]

@[simp] lemma AppendVarintString_eq (d : List Nat) (s : List Nat) :
    AppendVarintString d s = d ++ (uleb128 (zigzag32 (s.length : Int)) ++ s) := by
  simp [AppendVarintString, List.append_assoc]

/-- A fold whose step appends to its accumulator factors through the empty
accumulator. -/
lemma foldl_step_append {β : Type} (f : List Nat → β → List Nat)
    (hf : ∀ d x, f d x = d ++ f [] x) :
    ∀ (l : List β) (d : List Nat), l.foldl f d = d ++ l.foldl f [] := by
  intro l
  induction l with
  | nil => intro d; simp
  | cons x t ih =>
    intro d
    simp only [List.foldl_cons]
    rw [hf d x, ih (d ++ f [] x), ih (f [] x), List.append_assoc]

lemma pnrAppendTo_append (pnr : promisedNumberedRecord) (d : List Nat) :
    pnrAppendTo pnr d = d ++ pnrAppendTo pnr [] := by
  have hf : ∀ (dd : List Nat) (h : recordHeader),
      AppendVarintBytes (AppendVarintString dd h.key) (some h.value)
        = dd ++ AppendVarintBytes (AppendVarintString [] h.key) (some h.value) := by
    intro dd h
    simp [List.append_assoc]
  simp only [pnrAppendTo]
  conv_lhs => rw [foldl_step_append _ hf]
  conv_rhs => rw [foldl_step_append _ hf]
  simp [List.append_assoc]

lemma records_foldl_eq (r : recordBatch) (d : List Nat) :
    r.records.foldl (fun d pnr => pnrAppendTo pnr d) d = d ++ recsBytes r := by
  unfold recsBytes
  exact foldl_step_append _ (fun d pnr => pnrAppendTo_append pnr d) r.records d

/-! ## Shape of the encoded batch -/

/-- The fixed 65-byte header region of an encoded record batch, parameterized by
the three fields that compression may patch. -/
def rbHeaderFields (r : recordBatch) (outer batchLen attrs : Int) : List Nat :=
  int32be outer ++ int64be 0 ++ int32be batchLen ++ int32be (-1) ++ int8be 2 ++ int32be 0 ++
  int16be attrs ++ int32be ((r.records.length : Int) - 1) ++ int64be r.firstTimestamp ++
  int64be (r.firstTimestamp + (r.records.getLastD default).timestampDelta) ++
  int64be (-1) ++ int16be (-1) ++ int32be (-1) ++ int32be (r.records.length : Int)

@[simp] lemma rbHeaderFields_length (r : recordBatch) (o b a : Int) :
    (rbHeaderFields r o b a).length = 65 := by
  simp [rbHeaderFields]

lemma rbEncodeBody_none (r : recordBatch) (dst : List Nat) :
    rbEncodeBody r dst none
      = dst ++ rbHeaderFields r (r.wireLength - 4) (r.wireLength - 4 - 8 - 4) r.attrs
          ++ recsBytes r := by
  simp only [rbEncodeBody, rbHeaderFields]
  rw [records_foldl_eq]
  simp [List.append_assoc]

/-! ## In-place patch lemmas -/

lemma AppendInt32At_here (d c : List Nat) (o v : Int) :
    AppendInt32At (d ++ (int32be o ++ c)) d.length v = d ++ (int32be v ++ c) := by
  unfold AppendInt32At
  rw [List.take_left]
  rw [show d.length + 4 = (d ++ int32be o).length by simp]
  rw [← List.append_assoc, List.drop_left, List.append_assoc]

lemma AppendInt32At_at12 (d c : List Nat) (o z b v : Int) :
    AppendInt32At (d ++ (int32be o ++ (int64be z ++ (int32be b ++ c)))) (d.length + 12) v
      = d ++ (int32be o ++ (int64be z ++ (int32be v ++ c))) := by
  unfold AppendInt32At
  have h : d ++ (int32be o ++ (int64be z ++ (int32be b ++ c)))
      = (d ++ int32be o ++ int64be z) ++ (int32be b ++ c) := by
    simp [List.append_assoc]
  rw [h]
  rw [show d.length + 12 = (d ++ int32be o ++ int64be z).length by simp]
  rw [List.take_left]
  rw [show (d ++ int32be o ++ int64be z).length + 4
      = ((d ++ int32be o ++ int64be z) ++ int32be b).length by simp]
  rw [← List.append_assoc, List.drop_left]
  simp [List.append_assoc]

lemma AppendInt16At_at25 (d c : List Nat) (o z b m1 mg c0 a v : Int) :
    AppendInt16At
        (d ++ (int32be o ++ (int64be z ++ (int32be b ++ (int32be m1 ++ (int8be mg ++
          (int32be c0 ++ (int16be a ++ c)))))))) (d.length + 25) v
      = d ++ (int32be o ++ (int64be z ++ (int32be b ++ (int32be m1 ++ (int8be mg ++
          (int32be c0 ++ (int16be v ++ c))))))) := by
  unfold AppendInt16At
  have h : d ++ (int32be o ++ (int64be z ++ (int32be b ++ (int32be m1 ++ (int8be mg ++
        (int32be c0 ++ (int16be a ++ c)))))))
      = (d ++ int32be o ++ int64be z ++ int32be b ++ int32be m1 ++ int8be mg ++ int32be c0)
          ++ (int16be a ++ c) := by
    simp [List.append_assoc]
  rw [h]
  rw [show d.length + 25
      = (d ++ int32be o ++ int64be z ++ int32be b ++ int32be m1 ++ int8be mg
          ++ int32be c0).length by simp]
  rw [List.take_left]
  rw [show (d ++ int32be o ++ int64be z ++ int32be b ++ int32be m1 ++ int8be mg
        ++ int32be c0).length + 2
      = ((d ++ int32be o ++ int64be z ++ int32be b ++ int32be m1 ++ int8be mg
          ++ int32be c0) ++ int16be a).length by simp]
  rw [← List.append_assoc, List.drop_left]
  simp [List.append_assoc]

lemma rbEncodeBody_some (r : recordBatch) (dst : List Nat) (c : compressor) :
    rbEncodeBody r dst (some c)
      = match c.compress (recsBytes r) with
        | none => rbEncodeBody r dst none
        | some compressed =>
          if compressed.length < (recsBytes r).length then
            dst ++ rbHeaderFields r
                (r.wireLength - 4 - (((recsBytes r).length : Int) - (compressed.length : Int)))
                (r.wireLength - 4 - 8 - 4
                  - (((recsBytes r).length : Int) - (compressed.length : Int)))
                (Int.lor r.attrs c.cattrs)
              ++ compressed
          else rbEncodeBody r dst none := by
  rw [rbEncodeBody_none]
  simp only [rbEncodeBody]
  rw [records_foldl_eq]
  simp only [AppendInt8_eq, AppendInt16_eq, AppendInt32_eq, AppendInt64_eq, AppendArrayLen_eq]
  rw [show dst ++ int32be (r.wireLength - 4) ++ int64be 0 ++ int32be (r.wireLength - 4 - 8 - 4)
        ++ int32be (-1) ++ int8be 2 ++ int32be 0 ++ int16be r.attrs
        ++ int32be ((r.records.length : Int) - 1) ++ int64be r.firstTimestamp
        ++ int64be (r.firstTimestamp + (r.records.getLastD default).timestampDelta)
        ++ int64be (-1) ++ int16be (-1) ++ int32be (-1) ++ int32be (r.records.length : Int)
        ++ recsBytes r
      = (dst ++ int32be (r.wireLength - 4) ++ int64be 0 ++ int32be (r.wireLength - 4 - 8 - 4)
        ++ int32be (-1) ++ int8be 2 ++ int32be 0 ++ int16be r.attrs
        ++ int32be ((r.records.length : Int) - 1) ++ int64be r.firstTimestamp
        ++ int64be (r.firstTimestamp + (r.records.getLastD default).timestampDelta)
        ++ int64be (-1) ++ int16be (-1) ++ int32be (-1) ++ int32be (r.records.length : Int))
        ++ recsBytes r by simp [List.append_assoc]]
  rw [List.drop_left]
  cases hc : c.compress (recsBytes r) with
  | none => simp [rbHeaderFields, List.append_assoc]
  | some compressed =>
    by_cases hlt : compressed.length < (recsBytes r).length
    · simp only [hlt, if_true]
      rw [List.take_left]
      rw [show dst ++ int32be (r.wireLength - 4) ++ int64be 0
            ++ int32be (r.wireLength - 4 - 8 - 4) ++ int32be (-1) ++ int8be 2 ++ int32be 0
            ++ int16be r.attrs ++ int32be ((r.records.length : Int) - 1)
            ++ int64be r.firstTimestamp
            ++ int64be (r.firstTimestamp + (r.records.getLastD default).timestampDelta)
            ++ int64be (-1) ++ int16be (-1) ++ int32be (-1)
            ++ int32be (r.records.length : Int) ++ compressed
          = dst ++ (int32be (r.wireLength - 4) ++ (int64be 0
            ++ (int32be (r.wireLength - 4 - 8 - 4) ++ (int32be (-1) ++ (int8be 2 ++ (int32be 0
            ++ (int16be r.attrs ++ (int32be ((r.records.length : Int) - 1)
            ++ (int64be r.firstTimestamp
            ++ (int64be (r.firstTimestamp + (r.records.getLastD default).timestampDelta)
            ++ (int64be (-1) ++ (int16be (-1) ++ (int32be (-1)
            ++ (int32be (r.records.length : Int) ++ compressed)))))))))))))) by
        simp [List.append_assoc]]
      rw [AppendInt32At_here]
      rw [show (dst ++ int32be (r.wireLength - 4) ++ int64be 0).length = dst.length + 12 by simp]
      rw [AppendInt32At_at12]
      rw [show (dst ++ int32be (r.wireLength - 4) ++ int64be 0
            ++ int32be (r.wireLength - 4 - 8 - 4) ++ int32be (-1) ++ int8be 2
            ++ int32be 0).length = dst.length + 25 by simp]
      rw [AppendInt16At_at25]
      simp [rbHeaderFields, List.append_assoc]
    · simp [hlt, rbHeaderFields, List.append_assoc]

/-! ## Bounds and reads -/

lemma crc32cBitStep_lt (c : Nat) (h : c < 2 ^ 32) : crc32cBitStep c < 2 ^ 32 := by
  unfold crc32cBitStep
  split
  · exact Nat.xor_lt_two_pow (by omega) (by norm_num [crc32cPoly])
  · omega

lemma crc32cByteStep_lt (c b : Nat) (h : c < 2 ^ 32) : crc32cByteStep c b < 2 ^ 32 := by
  unfold crc32cByteStep
  have h0 : c ^^^ b % 2 ^ 8 < 2 ^ 32 := Nat.xor_lt_two_pow h (by omega)
  iterate 8 apply crc32cBitStep_lt
  exact h0

lemma crc32c_lt (data : List Nat) : crc32c data < 2 ^ 32 := by
  unfold crc32c
  apply Nat.xor_lt_two_pow _ (by norm_num)
  have : ∀ (l : List Nat) (init : Nat), init < 2 ^ 32 → l.foldl crc32cByteStep init < 2 ^ 32 := by
    intro l
    induction l with
    | nil => intro init h; simpa using h
    | cons x t ih => intro init h; exact ih _ (crc32cByteStep_lt init x h)
  exact this data _ (by norm_num)

lemma toInt32_mod (c : Nat) (hc : c < 2 ^ 32) : ((toInt32 c % 2 ^ 32).toNat) = c := by
  unfold toInt32
  split <;> omega

lemma readUInt32At_concat (a b : List Nat) (v : Int) :
    readUInt32At (a ++ (int32be v ++ b)) a.length = ((v % 2 ^ 32).toNat) := by
  have hu : ((v % 2 ^ 32).toNat) < 2 ^ 32 := by
    have := Int.emod_lt_of_pos v (show (0 : Int) < 2 ^ 32 by norm_num)
    omega
  have key : ∀ k, (a ++ (int32be v ++ b)).getD (a.length + k) 0 = (int32be v ++ b).getD k 0 := by
    intro k
    rw [List.getD_append_right _ _ _ _ (Nat.le_add_right _ _)]
    congr 1
    omega
  have k0 := key 0
  rw [Nat.add_zero] at k0
  unfold readUInt32At
  rw [k0, key 1, key 2, key 3]
  simp only [int32be, List.getD_cons_zero, List.getD_cons_succ, List.cons_append,
    List.getD_cons_zero]
  omega

lemma take_length_of_le {l : List Nat} {n : Nat} (h : n ≤ l.length) : (l.take n).length = n := by
  simp [Nat.min_eq_left h]

lemma AppendInt32At_read (pre : List Nat) (cs : Nat) (v : Int) (h : cs + 4 ≤ pre.length) :
    readUInt32At (AppendInt32At pre cs v) cs = ((v % 2 ^ 32).toNat) := by
  unfold AppendInt32At
  rw [List.append_assoc]
  have hc := readUInt32At_concat (pre.take cs) (pre.drop (cs + 4)) v
  rw [take_length_of_le (show cs ≤ pre.length by omega)] at hc
  exact hc

lemma AppendInt32At_drop (pre : List Nat) (cs : Nat) (v : Int) (h : cs + 4 ≤ pre.length) :
    (AppendInt32At pre cs v).drop (cs + 4) = pre.drop (cs + 4) := by
  have hlen : (pre.take cs ++ int32be v).length = cs + 4 := by
    simp [take_length_of_le (show cs ≤ pre.length by omega)]
  have h2 := List.drop_left (pre.take cs ++ int32be v) (pre.drop (cs + 4))
  rw [hlen] at h2
  unfold AppendInt32At
  exact h2

lemma AppendInt32At_getD (pre : List Nat) (cs : Nat) (v : Int) (i : Nat)
    (h : cs + 4 ≤ pre.length) (hi : i < cs ∨ cs + 4 ≤ i) :
    (AppendInt32At pre cs v).getD i 0 = pre.getD i 0 := by
  have hl : (pre.take cs ++ int32be v).length = cs + 4 := by
    simp [take_length_of_le (show cs ≤ pre.length by omega)]
  unfold AppendInt32At
  rcases hi with hi | hi
  · rw [List.getD_append _ _ _ _ (show i < (pre.take cs ++ int32be v).length by omega)]
    rw [List.getD_append _ _ _ _
      (show i < (pre.take cs).length by rw [take_length_of_le (by omega)]; omega)]
    simp [List.getD_eq_getElem?_getD, List.getElem?_take, hi]
  · rw [List.getD_append_right _ _ _ _ (show (pre.take cs ++ int32be v).length ≤ i by omega)]
    rw [hl]
    simp only [List.getD_eq_getElem?_getD, List.getElem?_drop]
    congr 2
    omega

lemma AppendInt32At_readUInt32At (pre : List Nat) (cs : Nat) (v : Int) (i : Nat)
    (h : cs + 4 ≤ pre.length) (hi : i + 4 ≤ cs ∨ cs + 4 ≤ i) :
    readUInt32At (AppendInt32At pre cs v) i = readUInt32At pre i := by
  unfold readUInt32At
  rw [AppendInt32At_getD pre cs v i h (by omega), AppendInt32At_getD pre cs v (i + 1) h (by omega),
    AppendInt32At_getD pre cs v (i + 2) h (by omega),
    AppendInt32At_getD pre cs v (i + 3) h (by omega)]

/-- Every encoded body is `dst`, then the 65-byte header, then a record region
no longer than the uncompressed records, with outer = batch-length + 12. -/
lemma rbEncodeBody_shape (r : recordBatch) (dst : List Nat) (comp : Option compressor) :
    ∃ o b a region, rbEncodeBody r dst comp = dst ++ rbHeaderFields r o b a ++ region
      ∧ o = b + 12 ∧ region.length ≤ (recsBytes r).length := by
  cases comp with
  | none =>
    exact ⟨r.wireLength - 4, r.wireLength - 4 - 8 - 4, r.attrs, recsBytes r,
      rbEncodeBody_none r dst, by ring, le_refl _⟩
  | some c =>
    rw [rbEncodeBody_some]
    cases hc : c.compress (recsBytes r) with
    | none =>
      exact ⟨r.wireLength - 4, r.wireLength - 4 - 8 - 4, r.attrs, recsBytes r,
        rbEncodeBody_none r dst, by ring, le_refl _⟩
    | some compressed =>
      by_cases hlt : compressed.length < (recsBytes r).length
      · simp only [hlt, if_true]
        exact ⟨_, _, _, compressed, rfl, by ring, le_of_lt hlt⟩
      · simp only [hlt, if_false]
        exact ⟨r.wireLength - 4, r.wireLength - 4 - 8 - 4, r.attrs, recsBytes r,
          rbEncodeBody_none r dst, by ring, le_refl _⟩

lemma rbEncodeBody_length (r : recordBatch) (dst : List Nat) (comp : Option compressor) :
    dst.length + 65 ≤ (rbEncodeBody r dst comp).length := by
  obtain ⟨o, b, a, region, heq, -, -⟩ := rbEncodeBody_shape r dst comp
  rw [heq]
  simp

lemma rbHeaderFields_read_outer (r : recordBatch) (dst region : List Nat) (o b a : Int) :
    readUInt32At (dst ++ rbHeaderFields r o b a ++ region) dst.length = ((o % 2 ^ 32).toNat) := by
  rw [show dst ++ rbHeaderFields r o b a ++ region
      = dst ++ (int32be o ++ (int64be 0 ++ (int32be b ++ (int32be (-1) ++ (int8be 2
        ++ (int32be 0 ++ (int16be a ++ (int32be ((r.records.length : Int) - 1)
        ++ (int64be r.firstTimestamp
        ++ (int64be (r.firstTimestamp + (r.records.getLastD default).timestampDelta)
        ++ (int64be (-1) ++ (int16be (-1) ++ (int32be (-1)
        ++ (int32be (r.records.length : Int) ++ region))))))))))))))
      from by simp [rbHeaderFields, List.append_assoc]]
  exact readUInt32At_concat _ _ o

lemma rbHeaderFields_read_batchLen (r : recordBatch) (dst region : List Nat) (o b a : Int) :
    readUInt32At (dst ++ rbHeaderFields r o b a ++ region) (dst.length + 12)
      = ((b % 2 ^ 32).toNat) := by
  have hc := readUInt32At_concat (dst ++ int32be o ++ int64be 0)
    (int32be (-1) ++ (int8be 2 ++ (int32be 0 ++ (int16be a
      ++ (int32be ((r.records.length : Int) - 1) ++ (int64be r.firstTimestamp
      ++ (int64be (r.firstTimestamp + (r.records.getLastD default).timestampDelta)
      ++ (int64be (-1) ++ (int16be (-1) ++ (int32be (-1)
      ++ (int32be (r.records.length : Int) ++ region))))))))))) b
  rw [show (dst ++ int32be o ++ int64be 0).length = dst.length + 12 by simp] at hc
  rw [show dst ++ rbHeaderFields r o b a ++ region
      = dst ++ int32be o ++ int64be 0 ++ (int32be b ++ (int32be (-1) ++ (int8be 2
        ++ (int32be 0 ++ (int16be a ++ (int32be ((r.records.length : Int) - 1)
        ++ (int64be r.firstTimestamp
        ++ (int64be (r.firstTimestamp + (r.records.getLastD default).timestampDelta)
        ++ (int64be (-1) ++ (int16be (-1) ++ (int32be (-1)
        ++ (int32be (r.records.length : Int) ++ region))))))))))))
      from by simp [rbHeaderFields, List.append_assoc]]
  exact hc

lemma rbHeaderFields_read_lastOffsetDelta (r : recordBatch) (dst region : List Nat) (o b a : Int) :
    readUInt32At (dst ++ rbHeaderFields r o b a ++ region) (dst.length + 27)
      = ((((r.records.length : Int) - 1) % 2 ^ 32).toNat) := by
  have hc := readUInt32At_concat
    (dst ++ int32be o ++ int64be 0 ++ int32be b ++ int32be (-1) ++ int8be 2 ++ int32be 0
      ++ int16be a)
    (int64be r.firstTimestamp
      ++ (int64be (r.firstTimestamp + (r.records.getLastD default).timestampDelta)
      ++ (int64be (-1) ++ (int16be (-1) ++ (int32be (-1)
      ++ (int32be (r.records.length : Int) ++ region))))))
    ((r.records.length : Int) - 1)
  rw [show (dst ++ int32be o ++ int64be 0 ++ int32be b ++ int32be (-1) ++ int8be 2 ++ int32be 0
      ++ int16be a).length = dst.length + 27 by simp] at hc
  rw [show dst ++ rbHeaderFields r o b a ++ region
      = dst ++ int32be o ++ int64be 0 ++ int32be b ++ int32be (-1) ++ int8be 2 ++ int32be 0
        ++ int16be a ++ (int32be ((r.records.length : Int) - 1)
        ++ (int64be r.firstTimestamp
        ++ (int64be (r.firstTimestamp + (r.records.getLastD default).timestampDelta)
        ++ (int64be (-1) ++ (int16be (-1) ++ (int32be (-1)
        ++ (int32be (r.records.length : Int) ++ region)))))))
      from by simp [rbHeaderFields, List.append_assoc]]
  exact hc

lemma rbHeaderFields_read_count (r : recordBatch) (dst region : List Nat) (o b a : Int) :
    readUInt32At (dst ++ rbHeaderFields r o b a ++ region) (dst.length + 61)
      = (((r.records.length : Int) % 2 ^ 32).toNat) := by
  have hc := readUInt32At_concat
    (dst ++ int32be o ++ int64be 0 ++ int32be b ++ int32be (-1) ++ int8be 2 ++ int32be 0
      ++ int16be a ++ int32be ((r.records.length : Int) - 1) ++ int64be r.firstTimestamp
      ++ int64be (r.firstTimestamp + (r.records.getLastD default).timestampDelta)
      ++ int64be (-1) ++ int16be (-1) ++ int32be (-1))
    region (r.records.length : Int)
  rw [show (dst ++ int32be o ++ int64be 0 ++ int32be b ++ int32be (-1) ++ int8be 2 ++ int32be 0
      ++ int16be a ++ int32be ((r.records.length : Int) - 1) ++ int64be r.firstTimestamp
      ++ int64be (r.firstTimestamp + (r.records.getLastD default).timestampDelta)
      ++ int64be (-1) ++ int16be (-1) ++ int32be (-1)).length = dst.length + 61 by simp] at hc
  rw [show dst ++ rbHeaderFields r o b a ++ region
      = dst ++ int32be o ++ int64be 0 ++ int32be b ++ int32be (-1) ++ int8be 2 ++ int32be 0
        ++ int16be a ++ int32be ((r.records.length : Int) - 1) ++ int64be r.firstTimestamp
        ++ int64be (r.firstTimestamp + (r.records.getLastD default).timestampDelta)
        ++ int64be (-1) ++ int16be (-1) ++ int32be (-1)
        ++ (int32be (r.records.length : Int) ++ region)
      from by simp [rbHeaderFields, List.append_assoc]]
  exact hc

/-! ## Claims C1-C3: the batch encoder -/

/-- C1: for every sealed non-empty record batch, after `appendTo` completes
(including any compression patching), recomputing CRC-32C (Castagnoli) over the
bytes from immediately after the 4-byte checksum field to the end of the
encoded batch equals the value stored in the checksum field, for both the
compressed and the uncompressed outcome. -/
theorem appendTo_crc_roundtrip (r : recordBatch) (dst : List Nat) (comp : Option compressor)
    (hne : r.records ≠ []) :
    readUInt32At (recordBatchAppendTo r dst comp) (dst.length + 21)
      = crc32c ((recordBatchAppendTo r dst comp).drop (dst.length + 25)) := by
  have hlen : dst.length + 21 + 4 ≤ (rbEncodeBody r dst comp).length := by
    have := rbEncodeBody_length r dst comp
    omega
  rw [show dst.length + 25 = dst.length + 21 + 4 from by omega]
  unfold recordBatchAppendTo
  rw [AppendInt32At_read _ _ _ hlen, AppendInt32At_drop _ _ _ hlen]
  exact toInt32_mod _ (crc32c_lt _)

/-- Concrete batch used by the witnesses: one record, value `"a"`. -/
def wBatch : recordBatch := ⟨100, 0, 5, [⟨1, 0, 0, none, some [97], []⟩]⟩

/-- Witness for the C1 theorem at a concrete one-record batch. -/
theorem appendTo_crc_roundtrip_witness :
    readUInt32At (recordBatchAppendTo wBatch [] none) 21
      = crc32c ((recordBatchAppendTo wBatch [] none).drop 25) :=
  appendTo_crc_roundtrip wBatch [] none (by simp [wBatch])

/-- C2: for every sealed batch with at least one record, the encoded bytes
satisfy: the outer nullable-bytes length field equals the batch-length field
plus 12 (as 32-bit field values), the record-count field equals the number of
records, and the last-offset-delta field equals that number minus one; this
holds for both the compressed and uncompressed outcome. -/
theorem appendTo_field_consistency (r : recordBatch) (dst : List Nat) (comp : Option compressor)
    (hne : r.records ≠ []) (hsize : r.records.length < 2 ^ 31) :
    readUInt32At (recordBatchAppendTo r dst comp) dst.length
        = (readUInt32At (recordBatchAppendTo r dst comp) (dst.length + 12) + 12) % 2 ^ 32
      ∧ readUInt32At (recordBatchAppendTo r dst comp) (dst.length + 61) = r.records.length
      ∧ readUInt32At (recordBatchAppendTo r dst comp) (dst.length + 27)
          = r.records.length - 1 := by
  obtain ⟨o, b, a, region, heq, hob, -⟩ := rbEncodeBody_shape r dst comp
  have hlen : dst.length + 21 + 4 ≤ (rbEncodeBody r dst comp).length := by
    have := rbEncodeBody_length r dst comp
    omega
  have hpos : 1 ≤ r.records.length := List.length_pos.mpr hne
  unfold recordBatchAppendTo
  rw [AppendInt32At_readUInt32At _ _ _ dst.length hlen (Or.inl (by omega)),
    AppendInt32At_readUInt32At _ _ _ (dst.length + 12) hlen (Or.inl (by omega)),
    AppendInt32At_readUInt32At _ _ _ (dst.length + 61) hlen (Or.inr (by omega)),
    AppendInt32At_readUInt32At _ _ _ (dst.length + 27) hlen (Or.inr (by omega))]
  rw [heq, rbHeaderFields_read_outer, rbHeaderFields_read_batchLen,
    rbHeaderFields_read_lastOffsetDelta, rbHeaderFields_read_count, hob]
  refine ⟨by omega, by omega, by omega⟩

/-- Witness for the C2 theorem at a concrete one-record batch. -/
theorem appendTo_field_consistency_witness :
    readUInt32At (recordBatchAppendTo wBatch [] none) 0
        = (readUInt32At (recordBatchAppendTo wBatch [] none) 12 + 12) % 2 ^ 32
      ∧ readUInt32At (recordBatchAppendTo wBatch [] none) 61 = 1
      ∧ readUInt32At (recordBatchAppendTo wBatch [] none) 27 = 0 :=
  appendTo_field_consistency wBatch [] none (by simp [wBatch]) (by norm_num [wBatch])

/-- C3: if the compressor's output is nil or not strictly smaller than the
uncompressed record region, `appendTo` emits exactly the bytes of the
uncompressed encoding (no codec bit is set, since the attributes word is the
one written by the uncompressed path), and for every compressor the encoded
length is at most the uncompressed encoded length. -/
theorem appendTo_compression_fallback (r : recordBatch) (dst : List Nat) (c c2 : compressor)
    (hsoft : ∀ out, c.compress (recsBytes r) = some out → (recsBytes r).length ≤ out.length) :
    recordBatchAppendTo r dst (some c) = recordBatchAppendTo r dst none
      ∧ (recordBatchAppendTo r dst (some c2)).length
          ≤ (recordBatchAppendTo r dst none).length := by
  have len_eq : ∀ comp, (recordBatchAppendTo r dst comp).length
      = (rbEncodeBody r dst comp).length := by
    intro comp
    have hlen := rbEncodeBody_length r dst comp
    unfold recordBatchAppendTo AppendInt32At
    simp
    omega
  constructor
  · have hb : rbEncodeBody r dst (some c) = rbEncodeBody r dst none := by
      rw [rbEncodeBody_some]
      cases hc : c.compress (recsBytes r) with
      | none => rfl
      | some compressed =>
        have hge := hsoft compressed hc
        simp [show ¬ (compressed.length < (recsBytes r).length) from by omega]
    unfold recordBatchAppendTo
    rw [hb]
  · rw [len_eq, len_eq]
    obtain ⟨o1, b1, a1, reg1, he1, -, hr1⟩ := rbEncodeBody_shape r dst (some c2)
    rw [he1, rbEncodeBody_none]
    simp
    omega

/-- Compressor used by the C3 witness: always reports a soft error. -/
def wComp : compressor := ⟨fun _ => none, 1⟩

/-- Witness for the C3 theorem at a concrete batch and compressor. -/
theorem appendTo_compression_fallback_witness :
    recordBatchAppendTo wBatch [] (some wComp) = recordBatchAppendTo wBatch [] none
      ∧ (recordBatchAppendTo wBatch [] (some wComp)).length
          ≤ (recordBatchAppendTo wBatch [] none).length :=
  appendTo_compression_fallback wBatch [] wComp wComp (fun out h => by simp [wComp] at h)

/-! ## Assignment engine data model (`directConsumer`)

Go maps are modelled as association lists (`alook`/`aupd`/`aerase` are map
lookup, insert-or-replace, and `delete`); list order models the map's
iteration order for the loops that range over them. -/

/-- Map lookup on an association list. -/
def alook {κ β : Type} [DecidableEq κ] : List (κ × β) → κ → Option β
  | [], _ => none
  | (k', v) :: t, k => if k' = k then some v else alook t k

/-- Map insert-or-replace on an association list. -/
def aupd {κ β : Type} [DecidableEq κ] : List (κ × β) → κ → β → List (κ × β)
  | [], k, v => [(k, v)]
  | (k', v') :: t, k, v => if k' = k then (k, v) :: t else (k', v') :: aupd t k v

/-- Map `delete` on an association list. -/
def aerase {κ β : Type} [DecidableEq κ] : List (κ × β) → κ → List (κ × β)
  | [], _ => []
  | (k', v) :: t, k => if k' = k then aerase t k else (k', v) :: aerase t k

/-- `directConsumer`, with `Offset` kept abstract (the engine never inspects
offsets, it only copies them). -/
structure directConsumer (α : Type) where
  topics : List (String × α)
  partitions : List (String × List (Int × α))
  regexTopics : Bool
  reTopics : List (String × α)
  reIgnore : List String
  «using» : List (String × List Int)
deriving DecidableEq

/-- The regex loop `for reTopic, offset := range d.topics { if match { break } }`:
first pattern (in iteration order) matching the topic wins. -/
def firstMatch {α : Type} (matchFn : String → String → Bool) :
    List (String × α) → String → Option α
  | [], _ => none
  | (pat, off) :: t, topic =>
    if matchFn pat topic then some off else firstMatch matchFn t topic

/-- Accumulator of the staging loop: the `toUse` map under construction plus
the two regex memoization caches being extended in place. -/
structure stageAcc (α : Type) where
  toUse : List (String × List (Int × α))
  reTopics : List (String × α)
  reIgnore : List String

/-- Lines 111-141 of `findNewAssignments`: decide whether a topology topic is
wanted and at which offset, updating the regex memoization caches. -/
def wantTopic {α : Type} (matchFn : String → String → Bool) (d : directConsumer α)
    (reT : List (String × α)) (reI : List String) (topic : String) :
    Option α × List (String × α) × List String :=
  if d.regexTopics then
    match alook reT topic with
    | some offset => (some offset, reT, reI)
    | none =>
      if topic ∈ reI then (none, reT, reI)
      else
        match firstMatch matchFn d.topics topic with
        | some offset => (some offset, aupd reT topic offset, reI)
        | none => (none, reT, reI ++ [topic])
  else (alook d.topics topic, reT, reI)

/-- Stage all currently-visible partitions of a wanted topic at one offset
(`toUseTopic[partition] = useOffset` over the partition list). -/
def stagePartitions {α : Type} (parts : List Int) (offset : α) : List (Int × α) :=
  parts.foldl (fun m p => aupd m p offset) []

/-- Lines 154-163: overlay the explicit pins of one topic onto `toUse`. -/
def applyPins {α : Type} (pins : List (Int × α)) (topic : String)
    (toUse : List (String × List (Int × α))) : List (String × List (Int × α)) :=
  pins.foldl (fun tu po => aupd tu topic (aupd ((alook tu topic).getD []) po.1 po.2)) toUse

/-- One iteration of the topology loop (lines 110-164). -/
def processTopic {α : Type} (matchFn : String → String → Bool) (d : directConsumer α)
    (acc : stageAcc α) (topic : String) (parts : List Int) : stageAcc α :=
  let wtr := wantTopic matchFn d acc.reTopics acc.reIgnore topic
  let toUse :=
    match wtr.1 with
    | some offset => aupd acc.toUse topic (stagePartitions parts offset)
    | none => acc.toUse
  let toUse :=
    match alook d.partitions topic with
    | none => toUse
    | some pins => applyPins pins topic toUse
  ⟨toUse, wtr.2.1, wtr.2.2⟩

/-- The staging loop over the whole topology. -/
def stageAll {α : Type} (matchFn : String → String → Bool) (d : directConsumer α)
    (topo : List (String × List Int)) : stageAcc α :=
  topo.foldl (fun acc tp => processTopic matchFn d acc tp.1 tp.2) ⟨[], d.reTopics, d.reIgnore⟩

/-- `for partition := range partitions { delete(toUseTopic, partition) }`. -/
def eraseParts {α : Type} (tut : List (Int × α)) (parts : List Int) : List (Int × α) :=
  parts.foldl (fun m p => aerase m p) tut

/-- Lines 166-179: remove what is already used from `toUse` (whole topic when
the sizes agree, otherwise partition by partition). -/
def subtractUsing {α : Type} (usingL : List (String × List Int))
    (tu : List (String × List (Int × α))) : List (String × List (Int × α)) :=
  usingL.foldl (fun tu' pr =>
    match alook tu' pr.1 with
    | none => tu'
    | some tut =>
      if pr.2.length = tut.length then aerase tu' pr.1
      else aupd tu' pr.1 (eraseParts tut pr.2)) tu

/-- Set insert of a partition id. -/
def insertPart (l : List Int) (p : Int) : List Int := if p ∈ l then l else l ++ [p]

/-- Lines 187-196: merge the staged assignments into the using map. -/
def mergeUsing {α : Type} (usingL : List (String × List Int))
    (tu : List (String × List (Int × α))) : List (String × List Int) :=
  tu.foldl (fun ul pr =>
    aupd ul pr.1 (pr.2.foldl (fun s po => insertPart s po.1) ((alook ul pr.1).getD []))) usingL

/-- `directConsumer.findNewAssignments`: returns the updated consumer state and
the delta (`none` models the Go `nil` return). -/
def findNewAssignments {α : Type} (matchFn : String → String → Bool) (d : directConsumer α)
    (topics : List (String × List Int)) :
    directConsumer α × Option (List (String × List (Int × α))) :=
  let acc := stageAll matchFn d topics
  let toUse := subtractUsing d.«using» acc.toUse
  let d' := { d with reTopics := acc.reTopics, reIgnore := acc.reIgnore }
  if toUse.isEmpty then (d', none)
  else ({ d' with «using» := mergeUsing d.«using» toUse }, some toUse)

/-! ## Association list lemmas -/

section AssocLemmas

variable {κ β : Type} [DecidableEq κ]

lemma alook_aupd_self (l : List (κ × β)) (k : κ) (v : β) : alook (aupd l k v) k = some v := by
  induction l with
  | nil => simp [aupd, alook]
  | cons pr t ih =>
    by_cases h : pr.1 = k
    · simp [aupd, h, alook]
    · simp [aupd, h, alook, ih]

lemma alook_aupd_ne (l : List (κ × β)) (k k' : κ) (v : β) (h : k' ≠ k) :
    alook (aupd l k v) k' = alook l k' := by
  induction l with
  | nil => simp [aupd, alook, Ne.symm h]
  | cons pr t ih =>
    by_cases hpk : pr.1 = k
    · simp [aupd, hpk, alook, Ne.symm h]
    · by_cases hpk' : pr.1 = k'
      · simp [aupd, hpk, alook, hpk', h]
      · simp [aupd, hpk, alook, hpk', ih]

lemma alook_aerase_self (l : List (κ × β)) (k : κ) : alook (aerase l k) k = none := by
  induction l with
  | nil => simp [aerase, alook]
  | cons pr t ih =>
    by_cases h : pr.1 = k
    · simp [aerase, h, ih]
    · simp [aerase, h, alook, ih]

lemma alook_aerase_ne (l : List (κ × β)) (k k' : κ) (h : k' ≠ k) :
    alook (aerase l k) k' = alook l k' := by
  induction l with
  | nil => simp [aerase]
  | cons pr t ih =>
    by_cases hpk : pr.1 = k
    · rw [show alook (pr :: t) k' = alook t k' from by
        have : pr.1 ≠ k' := fun e => h (hpk ▸ e).symm
        simp [alook, this]]
      simp [aerase, hpk, ih]
    · by_cases hpk' : pr.1 = k'
      · simp [aerase, hpk, alook, hpk', h]
      · simp [aerase, hpk, alook, hpk', ih]

lemma mem_keys_aupd (l : List (κ × β)) (k x : κ) (v : β)
    (h : x ∈ (aupd l k v).map Prod.fst) : x ∈ l.map Prod.fst ∨ x = k := by
  induction l with
  | nil =>
    simp only [aupd, List.map_cons, List.map_nil, List.mem_singleton] at h
    exact Or.inr h
  | cons pr t ih =>
    by_cases hpk : pr.1 = k
    · simp only [aupd, hpk, if_true, List.map_cons, List.mem_cons] at h
      rcases h with h | h
      · exact Or.inr h
      · rw [List.map_cons]
        exact Or.inl (List.mem_cons.mpr (Or.inr h))
    · simp only [aupd, hpk, if_false, List.map_cons, List.mem_cons] at h
      rcases h with h | h
      · rw [List.map_cons]
        exact Or.inl (List.mem_cons.mpr (Or.inl h))
      · rcases ih h with h' | h'
        · rw [List.map_cons]
          exact Or.inl (List.mem_cons.mpr (Or.inr h'))
        · exact Or.inr h'

lemma keys_aupd_nodup (l : List (κ × β)) (k : κ) (v : β)
    (h : (l.map Prod.fst).Nodup) : ((aupd l k v).map Prod.fst).Nodup := by
  induction l with
  | nil => simp [aupd]
  | cons pr t ih =>
    rw [List.map_cons, List.nodup_cons] at h
    by_cases hpk : pr.1 = k
    · simp only [aupd, hpk, if_true, List.map_cons, List.nodup_cons]
      exact ⟨hpk ▸ h.1, h.2⟩
    · simp only [aupd, hpk, if_false, List.map_cons, List.nodup_cons]
      refine ⟨fun hx => ?_, ih h.2⟩
      rcases mem_keys_aupd t k pr.1 v hx with h' | h'
      · exact h.1 h'
      · exact hpk h'

lemma mem_keys_aerase (l : List (κ × β)) (k x : κ)
    (h : x ∈ (aerase l k).map Prod.fst) : x ∈ l.map Prod.fst := by
  induction l with
  | nil => simpa [aerase] using h
  | cons pr t ih =>
    by_cases hpk : pr.1 = k
    · simp only [aerase, hpk, if_true] at h
      rw [List.map_cons]
      exact List.mem_cons.mpr (Or.inr (ih h))
    · simp only [aerase, hpk, if_false, List.map_cons, List.mem_cons] at h
      rw [List.map_cons]
      rcases h with h | h
      · exact List.mem_cons.mpr (Or.inl h)
      · exact List.mem_cons.mpr (Or.inr (ih h))

lemma keys_aerase_nodup (l : List (κ × β)) (k : κ)
    (h : (l.map Prod.fst).Nodup) : ((aerase l k).map Prod.fst).Nodup := by
  induction l with
  | nil => simp [aerase]
  | cons pr t ih =>
    rw [List.map_cons, List.nodup_cons] at h
    by_cases hpk : pr.1 = k
    · simp only [aerase, hpk, if_true]
      exact ih h.2
    · simp only [aerase, hpk, if_false, List.map_cons, List.nodup_cons]
      exact ⟨fun hx => h.1 (mem_keys_aerase t k pr.1 hx), ih h.2⟩

lemma mem_aerase (l : List (κ × β)) (k : κ) (pr : κ × β) :
    pr ∈ aerase l k ↔ pr ∈ l ∧ pr.1 ≠ k := by
  induction l with
  | nil => simp [aerase]
  | cons hd t ih =>
    by_cases hpk : hd.1 = k
    · simp only [aerase, hpk, if_true]
      rw [ih]
      constructor
      · rintro ⟨h1, h2⟩
        exact ⟨List.mem_cons_of_mem _ h1, h2⟩
      · rintro ⟨h1, h2⟩
        rcases List.mem_cons.mp h1 with h1 | h1
        · exact absurd (h1 ▸ hpk) h2
        · exact ⟨h1, h2⟩
    · simp only [aerase, hpk, if_false]
      constructor
      · intro h
        rcases List.mem_cons.mp h with h | h
        · exact ⟨h ▸ List.mem_cons_self _ _, h ▸ hpk⟩
        · rcases ih.mp h with ⟨h1, h2⟩
          exact ⟨List.mem_cons_of_mem _ h1, h2⟩
      · rintro ⟨h1, h2⟩
        rcases List.mem_cons.mp h1 with h1 | h1
        · exact h1 ▸ List.mem_cons_self _ _
        · exact List.mem_cons_of_mem _ (ih.mpr ⟨h1, h2⟩)

lemma mem_alook_of_nodup (l : List (κ × β)) (k : κ) (v : β)
    (hnd : (l.map Prod.fst).Nodup) (h : (k, v) ∈ l) : alook l k = some v := by
  induction l with
  | nil => simp at h
  | cons hd t ih =>
    rw [List.map_cons, List.nodup_cons] at hnd
    rcases List.mem_cons.mp h with h | h
    · simp [alook, ← h]
    · have hk : hd.1 ≠ k := by
        intro e
        exact hnd.1 (e ▸ (List.mem_map.mpr ⟨(k, v), h, rfl⟩))
      simp [alook, hk, ih hnd.2 h]

lemma alook_mem (l : List (κ × β)) (k : κ) (v : β) (h : alook l k = some v) : (k, v) ∈ l := by
  induction l with
  | nil => simp [alook] at h
  | cons hd t ih =>
    by_cases hpk : hd.1 = k
    · simp only [alook, hpk, if_true, Option.some.injEq] at h
      exact List.mem_cons.mpr (Or.inl (by rw [← hpk, ← h]))
    · simp only [alook, hpk, if_false] at h
      exact List.mem_cons_of_mem _ (ih h)

end AssocLemmas

/-! ## Pointwise characterization of the subtraction and merge phases -/

section EngineLemmas

variable {α : Type}

lemma mem_eraseParts (tut : List (Int × α)) (parts : List Int) (po : Int × α) :
    po ∈ eraseParts tut parts ↔ po ∈ tut ∧ po.1 ∉ parts := by
  induction parts generalizing tut with
  | nil => simp [eraseParts]
  | cons p ps ih =>
    show po ∈ eraseParts (aerase tut p) ps ↔ _
    rw [ih, mem_aerase]
    simp [and_assoc]

lemma eraseParts_eq_nil (tut : List (Int × α)) (parts : List Int)
    (h : ∀ po ∈ tut, po.1 ∈ parts) : eraseParts tut parts = [] := by
  rw [List.eq_nil_iff_forall_not_mem]
  intro po hpo
  rw [mem_eraseParts] at hpo
  exact hpo.2 (h po hpo.1)

lemma mem_insertPart (l : List Int) (p q : Int) (h : q ∈ l ∨ q = p) : q ∈ insertPart l p := by
  unfold insertPart
  rcases h with h | h
  · split <;> simp [h]
  · subst h
    split
    · assumption
    · simp

lemma mem_insertPartFold (m : List (Int × α)) (s : List Int) (q : Int)
    (h : q ∈ s ∨ ∃ o, (q, o) ∈ m) :
    q ∈ m.foldl (fun s po => insertPart s po.1) s := by
  induction m generalizing s with
  | nil =>
    rcases h with h | ⟨o, ho⟩
    · simpa using h
    · simp at ho
  | cons po rest ih =>
    show q ∈ rest.foldl _ (insertPart s po.1)
    rcases h with h | ⟨o, ho⟩
    · exact ih _ (Or.inl (mem_insertPart s po.1 q (Or.inl h)))
    · rcases List.mem_cons.mp ho with ho | ho
      · exact ih _ (Or.inl (mem_insertPart s po.1 q (Or.inr (congrArg Prod.fst ho))))
      · exact ih _ (Or.inr ⟨o, ho⟩)

end EngineLemmas

section SubMergeLemmas

variable {α : Type}

/-- The delta's pair membership: partition `p` of topic `t` is in the map. -/
def pairMem (l : List (String × List Int)) (t : String) (p : Int) : Prop :=
  ∃ ps, alook l t = some ps ∧ p ∈ ps

lemma subtractUsing_cons (pr : String × List Int) (rest : List (String × List Int))
    (tu : List (String × List (Int × α))) :
    subtractUsing (pr :: rest) tu
      = subtractUsing rest
          (match alook tu pr.1 with
           | none => tu
           | some tut =>
             if pr.2.length = tut.length then aerase tu pr.1
             else aupd tu pr.1 (eraseParts tut pr.2)) := rfl

lemma alook_subtractUsing_notmem (usingL : List (String × List Int))
    (tu : List (String × List (Int × α))) (t : String)
    (h : t ∉ usingL.map Prod.fst) :
    alook (subtractUsing usingL tu) t = alook tu t := by
  induction usingL generalizing tu with
  | nil => rfl
  | cons pr rest ih =>
    rw [List.map_cons] at h
    have hne : pr.1 ≠ t := fun e => h (e ▸ List.mem_cons_self _ _)
    have hrest : t ∉ rest.map Prod.fst := fun e => h (List.mem_cons_of_mem _ e)
    rw [subtractUsing_cons, ih _ hrest]
    cases halook : alook tu pr.1 with
    | none => rfl
    | some tut =>
      by_cases hlen : pr.2.length = tut.length
      · simp only [hlen, if_true]
        exact alook_aerase_ne tu pr.1 t (Ne.symm hne)
      · simp only [hlen, if_false]
        exact alook_aupd_ne tu pr.1 t _ (Ne.symm hne)

lemma alook_subtractUsing (usingL : List (String × List Int))
    (tu : List (String × List (Int × α))) (t : String)
    (hnd : (usingL.map Prod.fst).Nodup) :
    alook (subtractUsing usingL tu) t
      = match alook usingL t with
        | none => alook tu t
        | some ps =>
          match alook tu t with
          | none => none
          | some m => if ps.length = m.length then none else some (eraseParts m ps) := by
  induction usingL generalizing tu with
  | nil => rfl
  | cons pr rest ih =>
    rw [List.map_cons, List.nodup_cons] at hnd
    rw [subtractUsing_cons]
    by_cases hpt : pr.1 = t
    · subst hpt
      have hrest : pr.1 ∉ rest.map Prod.fst := hnd.1
      rw [alook_subtractUsing_notmem rest _ pr.1 hrest]
      rw [show alook (pr :: rest) pr.1 = some pr.2 from by simp [alook]]
      cases halook : alook tu pr.1 with
      | none => exact halook
      | some tut =>
        by_cases hlen : pr.2.length = tut.length
        · simp only [hlen, if_true]
          exact alook_aerase_self tu pr.1
        · simp only [hlen, if_false]
          exact alook_aupd_self tu pr.1 _
    · rw [show alook (pr :: rest) t = alook rest t from by simp [alook, hpt]]
      rw [ih _ hnd.2]
      cases halook : alook tu pr.1 with
      | none => rfl
      | some tut =>
        by_cases hlen : pr.2.length = tut.length
        · simp only [hlen, if_true]
          rw [alook_aerase_ne tu pr.1 t (Ne.symm hpt)]
        · simp only [hlen, if_false]
          rw [alook_aupd_ne tu pr.1 t _ (Ne.symm hpt)]

lemma subtractUsing_keys_nodup (usingL : List (String × List Int))
    (tu : List (String × List (Int × α)))
    (h : (tu.map Prod.fst).Nodup) :
    ((subtractUsing usingL tu).map Prod.fst).Nodup := by
  induction usingL generalizing tu with
  | nil => exact h
  | cons pr rest ih =>
    rw [subtractUsing_cons]
    cases halook : alook tu pr.1 with
    | none => exact ih _ h
    | some tut =>
      by_cases hlen : pr.2.length = tut.length
      · simp only [hlen, if_true]
        exact ih _ (keys_aerase_nodup _ _ h)
      · simp only [hlen, if_false]
        exact ih _ (keys_aupd_nodup _ _ _ h)

lemma mergeUsing_cons (pr : String × List (Int × α)) (rest : List (String × List (Int × α)))
    (ul : List (String × List Int)) :
    mergeUsing (ul) (pr :: rest)
      = mergeUsing
          (aupd ul pr.1 (pr.2.foldl (fun s po => insertPart s po.1) ((alook ul pr.1).getD [])))
          rest := rfl

lemma alook_mergeUsing_notmem (ul : List (String × List Int))
    (tu : List (String × List (Int × α))) (t : String)
    (h : t ∉ tu.map Prod.fst) :
    alook (mergeUsing ul tu) t = alook ul t := by
  induction tu generalizing ul with
  | nil => rfl
  | cons pr rest ih =>
    rw [List.map_cons] at h
    have hne : pr.1 ≠ t := fun e => h (e ▸ List.mem_cons_self _ _)
    have hrest : t ∉ rest.map Prod.fst := fun e => h (List.mem_cons_of_mem _ e)
    rw [mergeUsing_cons, ih _ hrest]
    exact alook_aupd_ne ul pr.1 t _ (Ne.symm hne)

lemma alook_mergeUsing (ul : List (String × List Int))
    (tu : List (String × List (Int × α))) (t : String)
    (hnd : (tu.map Prod.fst).Nodup) :
    alook (mergeUsing ul tu) t
      = match alook tu t with
        | none => alook ul t
        | some m =>
          some (m.foldl (fun s po => insertPart s po.1) ((alook ul t).getD [])) := by
  induction tu generalizing ul with
  | nil => rfl
  | cons pr rest ih =>
    rw [List.map_cons, List.nodup_cons] at hnd
    rw [mergeUsing_cons]
    by_cases hpt : pr.1 = t
    · subst hpt
      rw [alook_mergeUsing_notmem _ rest pr.1 hnd.1]
      rw [show alook (pr :: rest) pr.1 = some pr.2 from by simp [alook]]
      exact alook_aupd_self ul pr.1 _
    · rw [show alook (pr :: rest) t = alook rest t from by simp [alook, hpt]]
      rw [ih _ hnd.2]
      rw [alook_aupd_ne ul pr.1 t _ (Ne.symm hpt)]

lemma mergeUsing_keys_nodup (ul : List (String × List Int))
    (tu : List (String × List (Int × α)))
    (h : (ul.map Prod.fst).Nodup) :
    ((mergeUsing ul tu).map Prod.fst).Nodup := by
  induction tu generalizing ul with
  | nil => exact h
  | cons pr rest ih =>
    rw [mergeUsing_cons]
    exact ih _ (keys_aupd_nodup _ _ _ h)

lemma mergeUsing_pair_mono (ul : List (String × List Int))
    (tu : List (String × List (Int × α))) (t : String) (p : Int)
    (h : pairMem ul t p) : pairMem (mergeUsing ul tu) t p := by
  induction tu generalizing ul with
  | nil => exact h
  | cons pr rest ih =>
    rw [mergeUsing_cons]
    apply ih
    obtain ⟨ps, hal, hp⟩ := h
    by_cases hpt : pr.1 = t
    · subst hpt
      refine ⟨_, alook_aupd_self ul pr.1 _, ?_⟩
      apply mem_insertPartFold
      left
      rw [hal]
      exact hp
    · exact ⟨ps, by rw [alook_aupd_ne ul pr.1 t _ (Ne.symm hpt)]; exact hal, hp⟩

end SubMergeLemmas

/-! ## Staging loop lemmas -/

section StageLemmas

variable {α : Type}

/-- The staging fold started from an arbitrary accumulator (proof device). -/
def stageFoldFrom (matchFn : String → String → Bool) (d : directConsumer α)
    (acc : stageAcc α) (topo : List (String × List Int)) : stageAcc α :=
  topo.foldl (fun acc tp => processTopic matchFn d acc tp.1 tp.2) acc

lemma stageAll_eq_from (f : String → String → Bool) (d : directConsumer α)
    (topo : List (String × List Int)) :
    stageAll f d topo = stageFoldFrom f d ⟨[], d.reTopics, d.reIgnore⟩ topo := rfl

lemma stageFoldFrom_append (f : String → String → Bool) (d : directConsumer α)
    (acc : stageAcc α) (l1 l2 : List (String × List Int)) :
    stageFoldFrom f d acc (l1 ++ l2) = stageFoldFrom f d (stageFoldFrom f d acc l1) l2 :=
  List.foldl_append _ _ _ _

lemma wantTopic_reT_ne (f : String → String → Bool) (d : directConsumer α)
    (reT : List (String × α)) (reI : List String) (topic t : String) (h : t ≠ topic) :
    alook (wantTopic f d reT reI topic).2.1 t = alook reT t := by
  unfold wantTopic
  cases hr : d.regexTopics with
  | false => simp
  | true =>
    simp only [if_true]
    cases alook reT topic with
    | some o => rfl
    | none =>
      by_cases hi : topic ∈ reI
      · simp [hi]
      · simp only [hi, if_false]
        cases firstMatch f d.topics topic with
        | some o => exact alook_aupd_ne reT topic t o h
        | none => rfl

lemma wantTopic_reI_ne (f : String → String → Bool) (d : directConsumer α)
    (reT : List (String × α)) (reI : List String) (topic t : String) (h : t ≠ topic) :
    (t ∈ (wantTopic f d reT reI topic).2.2 ↔ t ∈ reI) := by
  unfold wantTopic
  cases hr : d.regexTopics with
  | false => simp
  | true =>
    simp only [if_true]
    cases alook reT topic with
    | some o => rfl
    | none =>
      by_cases hi : topic ∈ reI
      · simp [hi]
      · simp only [hi, if_false]
        cases firstMatch f d.topics topic with
        | some o => rfl
        | none => simp [h]

lemma applyPins_alook_ne (pins : List (Int × α)) (topic t : String)
    (tu : List (String × List (Int × α))) (h : t ≠ topic) :
    alook (applyPins pins topic tu) t = alook tu t := by
  induction pins generalizing tu with
  | nil => rfl
  | cons po ps ih =>
    show alook (applyPins ps topic (aupd tu topic _)) t = _
    rw [ih _, alook_aupd_ne tu topic t _ h]

lemma processTopic_toUse_ne (f : String → String → Bool) (d : directConsumer α)
    (acc : stageAcc α) (topic t : String) (parts : List Int) (h : t ≠ topic) :
    alook (processTopic f d acc topic parts).toUse t = alook acc.toUse t := by
  simp only [processTopic]
  cases hw : (wantTopic f d acc.reTopics acc.reIgnore topic).1 with
  | some o =>
    cases hp : alook d.partitions topic with
    | none =>
      dsimp only
      exact alook_aupd_ne acc.toUse topic t _ h
    | some pins =>
      dsimp only
      rw [applyPins_alook_ne pins topic t _ h, alook_aupd_ne acc.toUse topic t _ h]
  | none =>
    cases hp : alook d.partitions topic with
    | none => rfl
    | some pins =>
      dsimp only
      exact applyPins_alook_ne pins topic t acc.toUse h

lemma processTopic_reT_ne (f : String → String → Bool) (d : directConsumer α)
    (acc : stageAcc α) (topic t : String) (parts : List Int) (h : t ≠ topic) :
    alook (processTopic f d acc topic parts).reTopics t = alook acc.reTopics t :=
  wantTopic_reT_ne f d acc.reTopics acc.reIgnore topic t h

lemma processTopic_reI_ne (f : String → String → Bool) (d : directConsumer α)
    (acc : stageAcc α) (topic t : String) (parts : List Int) (h : t ≠ topic) :
    (t ∈ (processTopic f d acc topic parts).reIgnore ↔ t ∈ acc.reIgnore) :=
  wantTopic_reI_ne f d acc.reTopics acc.reIgnore topic t h

lemma stageFold_toUse_notmem (f : String → String → Bool) (d : directConsumer α)
    (acc : stageAcc α) (topo : List (String × List Int)) (t : String)
    (h : t ∉ topo.map Prod.fst) :
    alook (stageFoldFrom f d acc topo).toUse t = alook acc.toUse t := by
  induction topo generalizing acc with
  | nil => rfl
  | cons tp rest ih =>
    rw [List.map_cons] at h
    have hne : t ≠ tp.1 := fun e => h (e ▸ List.mem_cons_self _ _)
    have hrest : t ∉ rest.map Prod.fst := fun e => h (List.mem_cons_of_mem _ e)
    show alook (stageFoldFrom f d (processTopic f d acc tp.1 tp.2) rest).toUse t = _
    rw [ih _ hrest, processTopic_toUse_ne f d acc tp.1 t tp.2 hne]

lemma stageFold_reT_notmem (f : String → String → Bool) (d : directConsumer α)
    (acc : stageAcc α) (topo : List (String × List Int)) (t : String)
    (h : t ∉ topo.map Prod.fst) :
    alook (stageFoldFrom f d acc topo).reTopics t = alook acc.reTopics t := by
  induction topo generalizing acc with
  | nil => rfl
  | cons tp rest ih =>
    rw [List.map_cons] at h
    have hne : t ≠ tp.1 := fun e => h (e ▸ List.mem_cons_self _ _)
    have hrest : t ∉ rest.map Prod.fst := fun e => h (List.mem_cons_of_mem _ e)
    show alook (stageFoldFrom f d (processTopic f d acc tp.1 tp.2) rest).reTopics t = _
    rw [ih _ hrest, processTopic_reT_ne f d acc tp.1 t tp.2 hne]

lemma stageFold_reI_notmem (f : String → String → Bool) (d : directConsumer α)
    (acc : stageAcc α) (topo : List (String × List Int)) (t : String)
    (h : t ∉ topo.map Prod.fst) :
    (t ∈ (stageFoldFrom f d acc topo).reIgnore ↔ t ∈ acc.reIgnore) := by
  induction topo generalizing acc with
  | nil => exact Iff.rfl
  | cons tp rest ih =>
    rw [List.map_cons] at h
    have hne : t ≠ tp.1 := fun e => h (e ▸ List.mem_cons_self _ _)
    have hrest : t ∉ rest.map Prod.fst := fun e => h (List.mem_cons_of_mem _ e)
    show (t ∈ (stageFoldFrom f d (processTopic f d acc tp.1 tp.2) rest).reIgnore ↔ _)
    rw [ih _ hrest, processTopic_reI_ne f d acc tp.1 t tp.2 hne]

end StageLemmas

section CongrLemmas

variable {α : Type}

lemma wantTopic_congr (f : String → String → Bool) (d1 d2 : directConsumer α)
    (reT1 reT2 : List (String × α)) (reI1 reI2 : List String) (t : String)
    (hT : d1.topics = d2.topics) (hR : d1.regexTopics = d2.regexTopics)
    (h1 : alook reT1 t = alook reT2 t) (h2 : t ∈ reI1 ↔ t ∈ reI2) :
    (wantTopic f d1 reT1 reI1 t).1 = (wantTopic f d2 reT2 reI2 t).1
    ∧ alook (wantTopic f d1 reT1 reI1 t).2.1 t = alook (wantTopic f d2 reT2 reI2 t).2.1 t
    ∧ (t ∈ (wantTopic f d1 reT1 reI1 t).2.2 ↔ t ∈ (wantTopic f d2 reT2 reI2 t).2.2) := by
  unfold wantTopic
  rw [hT, hR]
  cases hr : d2.regexTopics with
  | false =>
    simp only [Bool.false_eq_true, if_false]
    exact ⟨by trivial, h1, by first | exact h2 | trivial⟩
  | true =>
    simp only [if_true]
    cases ha1 : alook reT1 t with
    | some o =>
      have ha2 : alook reT2 t = some o := by rw [← h1, ha1]
      rw [ha2]
      exact ⟨by trivial, h1, by first | exact h2 | trivial⟩
    | none =>
      have ha2 : alook reT2 t = none := by rw [← h1, ha1]
      rw [ha2]
      by_cases hi : t ∈ reI1
      · have hi2 : t ∈ reI2 := h2.mp hi
        simp only [hi, hi2, if_true]
        exact ⟨by trivial, h1, by first | exact h2 | trivial⟩
      · have hi2 : t ∉ reI2 := fun h => hi (h2.mpr h)
        simp only [hi, hi2, if_false]
        cases hfm : firstMatch f d2.topics t with
        | some o =>
          refine ⟨by trivial, ?_, by first | exact h2 | trivial⟩
          rw [alook_aupd_self, alook_aupd_self]
        | none =>
          refine ⟨by trivial, h1, by simp⟩

lemma processTopic_memo_mono (f : String → String → Bool) (d : directConsumer α)
    (acc : stageAcc α) (topic : String) (parts : List Int) (x : String)
    (h : (alook acc.reTopics x).isSome ∨ x ∈ acc.reIgnore) :
    (alook (processTopic f d acc topic parts).reTopics x).isSome
      ∨ x ∈ (processTopic f d acc topic parts).reIgnore := by
  show (alook (wantTopic f d acc.reTopics acc.reIgnore topic).2.1 x).isSome
      ∨ x ∈ (wantTopic f d acc.reTopics acc.reIgnore topic).2.2
  unfold wantTopic
  cases hr : d.regexTopics with
  | false => simpa using h
  | true =>
    simp only [if_true]
    cases ha : alook acc.reTopics topic with
    | some o => simpa using h
    | none =>
      by_cases hi : topic ∈ acc.reIgnore
      · simpa [hi] using h
      · simp only [hi, if_false]
        cases firstMatch f d.topics topic with
        | some o =>
          dsimp only
          rcases h with h | h
          · by_cases hx : x = topic
            · subst hx
              left
              rw [alook_aupd_self]
              rfl
            · left
              rwa [alook_aupd_ne _ _ _ _ hx]
          · exact Or.inr h
        | none =>
          dsimp only
          rcases h with h | h
          · exact Or.inl h
          · exact Or.inr (List.mem_append_left _ h)

lemma stageFold_fun_congr (f g : String → String → Bool) (d : directConsumer α)
    (acc : stageAcc α) (topo : List (String × List Int))
    (hmemo : ∀ tp ∈ topo, (alook acc.reTopics tp.1).isSome ∨ tp.1 ∈ acc.reIgnore) :
    stageFoldFrom f d acc topo = stageFoldFrom g d acc topo := by
  induction topo generalizing acc with
  | nil => rfl
  | cons tp rest ih =>
    have hstep : processTopic f d acc tp.1 tp.2 = processTopic g d acc tp.1 tp.2 := by
      have hwant : wantTopic f d acc.reTopics acc.reIgnore tp.1
          = wantTopic g d acc.reTopics acc.reIgnore tp.1 := by
        unfold wantTopic
        cases hr : d.regexTopics with
        | false => rfl
        | true =>
          simp only [if_true]
          rcases hmemo tp (List.mem_cons_self _ _) with h | h
          · cases ha : alook acc.reTopics tp.1 with
            | some o => rfl
            | none => rw [ha] at h; simp at h
          · cases ha : alook acc.reTopics tp.1 with
            | some o => rfl
            | none => simp [h]
      unfold processTopic
      rw [hwant]
    show stageFoldFrom f d (processTopic f d acc tp.1 tp.2) rest
        = stageFoldFrom g d (processTopic g d acc tp.1 tp.2) rest
    rw [← hstep]
    exact ih _ (fun tp' h' =>
      processTopic_memo_mono f d acc tp.1 tp.2 tp'.1 (hmemo tp' (List.mem_cons_of_mem _ h')))

lemma processTopic_toUse_congr (f : String → String → Bool) (d1 d2 : directConsumer α)
    (acc1 acc2 : stageAcc α) (topic : String) (parts : List Int)
    (hP : d1.partitions = d2.partitions)
    (hw : (wantTopic f d1 acc1.reTopics acc1.reIgnore topic).1
      = (wantTopic f d2 acc2.reTopics acc2.reIgnore topic).1)
    (htu : acc1.toUse = acc2.toUse) :
    (processTopic f d1 acc1 topic parts).toUse = (processTopic f d2 acc2 topic parts).toUse := by
  simp only [processTopic]
  rw [hw, htu, hP]

lemma stageFold_want_congr (f : String → String → Bool) (d1 d2 : directConsumer α)
    (acc1 acc2 : stageAcc α) (topo : List (String × List Int))
    (hT : d1.topics = d2.topics) (hP : d1.partitions = d2.partitions)
    (hR : d1.regexTopics = d2.regexTopics)
    (hnd : (topo.map Prod.fst).Nodup)
    (htu : acc1.toUse = acc2.toUse)
    (hw : ∀ tp ∈ topo, (wantTopic f d1 acc1.reTopics acc1.reIgnore tp.1).1
      = (wantTopic f d2 acc2.reTopics acc2.reIgnore tp.1).1) :
    (stageFoldFrom f d1 acc1 topo).toUse = (stageFoldFrom f d2 acc2 topo).toUse := by
  induction topo generalizing acc1 acc2 with
  | nil => exact htu
  | cons tp rest ih =>
    rw [List.map_cons, List.nodup_cons] at hnd
    show (stageFoldFrom f d1 (processTopic f d1 acc1 tp.1 tp.2) rest).toUse
        = (stageFoldFrom f d2 (processTopic f d2 acc2 tp.1 tp.2) rest).toUse
    apply ih _ _ hnd.2
    · exact processTopic_toUse_congr f d1 d2 acc1 acc2 tp.1 tp.2 hP
        (hw tp (List.mem_cons_self _ _)) htu
    · intro tp' h'
      have hne : tp'.1 ≠ tp.1 := by
        intro e
        exact hnd.1 (e ▸ List.mem_map.mpr ⟨tp', h', rfl⟩)
      have c1 := wantTopic_congr f d1 d1
        (processTopic f d1 acc1 tp.1 tp.2).reTopics acc1.reTopics
        (processTopic f d1 acc1 tp.1 tp.2).reIgnore acc1.reIgnore tp'.1 rfl rfl
        (processTopic_reT_ne f d1 acc1 tp.1 tp'.1 tp.2 hne)
        (processTopic_reI_ne f d1 acc1 tp.1 tp'.1 tp.2 hne)
      have c2 := wantTopic_congr f d2 d2
        (processTopic f d2 acc2 tp.1 tp.2).reTopics acc2.reTopics
        (processTopic f d2 acc2 tp.1 tp.2).reIgnore acc2.reIgnore tp'.1 rfl rfl
        (processTopic_reT_ne f d2 acc2 tp.1 tp'.1 tp.2 hne)
        (processTopic_reI_ne f d2 acc2 tp.1 tp'.1 tp.2 hne)
      rw [c1.1, c2.1]
      exact hw tp' (List.mem_cons_of_mem _ h')

lemma stageFold_memo_mem (f : String → String → Bool) (d : directConsumer α)
    (acc : stageAcc α) (topo : List (String × List Int)) (t : String) (parts : List Int)
    (hnd : (topo.map Prod.fst).Nodup) (hm : (t, parts) ∈ topo) :
    alook (stageFoldFrom f d acc topo).reTopics t
        = alook (wantTopic f d acc.reTopics acc.reIgnore t).2.1 t
    ∧ (t ∈ (stageFoldFrom f d acc topo).reIgnore
        ↔ t ∈ (wantTopic f d acc.reTopics acc.reIgnore t).2.2) := by
  obtain ⟨pre, post, rfl⟩ := List.append_of_mem hm
  have hsplit : t ∉ pre.map Prod.fst ∧ t ∉ post.map Prod.fst := by
    rw [List.map_append, List.map_cons] at hnd
    rw [List.nodup_append] at hnd
    obtain ⟨h1, h2, h3⟩ := hnd
    rw [List.nodup_cons] at h2
    exact ⟨fun hx => h3 hx (List.mem_cons_self _ _), h2.1⟩
  rw [stageFoldFrom_append]
  rw [show stageFoldFrom f d (stageFoldFrom f d acc pre) ((t, parts) :: post)
      = stageFoldFrom f d
          (processTopic f d (stageFoldFrom f d acc pre) t parts) post from rfl]
  rw [stageFold_reT_notmem f d _ post t hsplit.2, stageFold_reI_notmem f d _ post t hsplit.2]
  have hcong := wantTopic_congr f d d
    (stageFoldFrom f d acc pre).reTopics acc.reTopics
    (stageFoldFrom f d acc pre).reIgnore acc.reIgnore t rfl rfl
    (stageFold_reT_notmem f d acc pre t hsplit.1)
    (stageFold_reI_notmem f d acc pre t hsplit.1)
  exact ⟨hcong.2.1, hcong.2.2⟩

end CongrLemmas

section StabilityLemmas

variable {α : Type}

lemma applyPins_keys_nodup (pins : List (Int × α)) (topic : String)
    (tu : List (String × List (Int × α))) (h : (tu.map Prod.fst).Nodup) :
    ((applyPins pins topic tu).map Prod.fst).Nodup := by
  induction pins generalizing tu with
  | nil => exact h
  | cons po ps ih =>
    show ((applyPins ps topic (aupd tu topic _)).map Prod.fst).Nodup
    exact ih _ (keys_aupd_nodup _ _ _ h)

lemma processTopic_toUse_keys_nodup (f : String → String → Bool) (d : directConsumer α)
    (acc : stageAcc α) (topic : String) (parts : List Int)
    (h : (acc.toUse.map Prod.fst).Nodup) :
    ((processTopic f d acc topic parts).toUse.map Prod.fst).Nodup := by
  simp only [processTopic]
  cases hw : (wantTopic f d acc.reTopics acc.reIgnore topic).1 with
  | some o =>
    cases hp : alook d.partitions topic with
    | none => exact keys_aupd_nodup _ _ _ h
    | some pins => exact applyPins_keys_nodup pins topic _ (keys_aupd_nodup _ _ _ h)
  | none =>
    cases hp : alook d.partitions topic with
    | none => exact h
    | some pins => exact applyPins_keys_nodup pins topic _ h

lemma stageFold_toUse_keys_nodup (f : String → String → Bool) (d : directConsumer α)
    (acc : stageAcc α) (topo : List (String × List Int))
    (h : (acc.toUse.map Prod.fst).Nodup) :
    ((stageFoldFrom f d acc topo).toUse.map Prod.fst).Nodup := by
  induction topo generalizing acc with
  | nil => exact h
  | cons tp rest ih =>
    show ((stageFoldFrom f d (processTopic f d acc tp.1 tp.2) rest).toUse.map Prod.fst).Nodup
    exact ih _ (processTopic_toUse_keys_nodup f d acc tp.1 tp.2 h)

lemma stageAll_toUse_keys_nodup (f : String → String → Bool) (d : directConsumer α)
    (topo : List (String × List Int)) :
    ((stageAll f d topo).toUse.map Prod.fst).Nodup := by
  rw [stageAll_eq_from]
  exact stageFold_toUse_keys_nodup f d _ topo (by simp)

lemma findNewAssignments_spec (f : String → String → Bool) (d : directConsumer α)
    (topo : List (String × List Int)) :
    (findNewAssignments f d topo).2
        = (if (subtractUsing d.«using» (stageAll f d topo).toUse).isEmpty then none
           else some (subtractUsing d.«using» (stageAll f d topo).toUse))
    ∧ (findNewAssignments f d topo).1.«using»
        = (if (subtractUsing d.«using» (stageAll f d topo).toUse).isEmpty then d.«using»
           else mergeUsing d.«using» (subtractUsing d.«using» (stageAll f d topo).toUse))
    ∧ (findNewAssignments f d topo).1.topics = d.topics
    ∧ (findNewAssignments f d topo).1.partitions = d.partitions
    ∧ (findNewAssignments f d topo).1.regexTopics = d.regexTopics
    ∧ (findNewAssignments f d topo).1.reTopics = (stageAll f d topo).reTopics
    ∧ (findNewAssignments f d topo).1.reIgnore = (stageAll f d topo).reIgnore := by
  unfold findNewAssignments
  by_cases h : (subtractUsing d.«using» (stageAll f d topo).toUse).isEmpty <;> simp [h]

lemma wantTopic_stable (f : String → String → Bool) (d : directConsumer α)
    (reT reT' : List (String × α)) (reI reI' : List String) (t : String)
    (h1 : alook reT' t = alook (wantTopic f d reT reI t).2.1 t)
    (h2 : t ∈ reI' ↔ t ∈ (wantTopic f d reT reI t).2.2) :
    (wantTopic f d reT' reI' t).1 = (wantTopic f d reT reI t).1 := by
  cases hr : d.regexTopics with
  | false => simp [wantTopic, hr]
  | true =>
    simp only [wantTopic, hr, if_true] at h1 h2 ⊢
    cases ha : alook reT t with
    | some o =>
      simp only [ha] at h1 h2 ⊢
      simp [h1]
    | none =>
      simp only [ha] at h1 h2 ⊢
      by_cases hi : t ∈ reI
      · simp only [hi, if_true] at h1 h2 ⊢
        simp [h1, ha, h2.mpr trivial]
      · simp only [hi, if_false] at h1 h2 ⊢
        cases hfm : firstMatch f d.topics t with
        | some o =>
          simp only [hfm] at h1 h2 ⊢
          rw [alook_aupd_self] at h1
          simp [h1]
        | none =>
          simp only [hfm] at h1 h2 ⊢
          have ht' : t ∈ reI' := h2.mpr (by simp)
          simp [h1, ht', ha]

end StabilityLemmas

section FindLemmas

variable {α : Type}

/-- Pair membership in a staged/delta map (a `(topic, partition)` with some offset). -/
def pairMemD (l : List (String × List (Int × α))) (t : String) (p : Int) : Prop :=
  ∃ m, alook l t = some m ∧ ∃ o, (p, o) ∈ m

/-- Repeated reconciliations (proof device for the monotonicity claim). -/
def runAll (f : String → String → Bool) (d : directConsumer α)
    (topos : List (List (String × List Int))) : directConsumer α :=
  topos.foldl (fun d tp => (findNewAssignments f d tp).1) d

lemma find_want_stable (f : String → String → Bool) (d : directConsumer α)
    (topo : List (String × List Int)) (hnd : (topo.map Prod.fst).Nodup)
    (t : String) (parts : List Int) (hm : (t, parts) ∈ topo) :
    (wantTopic f (findNewAssignments f d topo).1 ((findNewAssignments f d topo).1).reTopics
        ((findNewAssignments f d topo).1).reIgnore t).1
      = (wantTopic f d d.reTopics d.reIgnore t).1 := by
  obtain ⟨-, -, hT, -, hR, hreT, hreI⟩ := findNewAssignments_spec f d topo
  have step1 := wantTopic_congr f (findNewAssignments f d topo).1 d
    ((findNewAssignments f d topo).1).reTopics ((findNewAssignments f d topo).1).reTopics
    ((findNewAssignments f d topo).1).reIgnore ((findNewAssignments f d topo).1).reIgnore
    t hT hR rfl Iff.rfl
  rw [step1.1, hreT, hreI, stageAll_eq_from]
  have hmm := stageFold_memo_mem f d ⟨[], d.reTopics, d.reIgnore⟩ topo t parts hnd hm
  exact wantTopic_stable f d d.reTopics _ d.reIgnore _ t hmm.1 hmm.2

lemma find_toUse_stable (f : String → String → Bool) (d : directConsumer α)
    (topo : List (String × List Int)) (hnd : (topo.map Prod.fst).Nodup) :
    (stageAll f (findNewAssignments f d topo).1 topo).toUse = (stageAll f d topo).toUse := by
  obtain ⟨-, -, hT, hP, hR, -, -⟩ := findNewAssignments_spec f d topo
  rw [stageAll_eq_from, stageAll_eq_from]
  apply stageFold_want_congr f (findNewAssignments f d topo).1 d
    ⟨[], (findNewAssignments f d topo).1.reTopics, (findNewAssignments f d topo).1.reIgnore⟩
    ⟨[], d.reTopics, d.reIgnore⟩ topo hT hP hR hnd rfl
  intro tp hm
  exact find_want_stable f d topo hnd tp.1 tp.2 hm

lemma find_using_mono (f : String → String → Bool) (d : directConsumer α)
    (topo : List (String × List Int)) (t : String) (p : Int)
    (h : pairMem d.«using» t p) :
    pairMem ((findNewAssignments f d topo).1).«using» t p := by
  obtain ⟨-, hU, -⟩ := findNewAssignments_spec f d topo
  rw [hU]
  by_cases hemp : (subtractUsing d.«using» (stageAll f d topo).toUse).isEmpty
  · simpa [hemp] using h
  · simp only [hemp, if_false]
    exact mergeUsing_pair_mono _ _ t p h

lemma stagePartitions_foldl_alook (parts : List Int) (o : α) (q : Int)
    (m : List (Int × α)) :
    alook (parts.foldl (fun m p => aupd m p o) m) q
      = if q ∈ parts then some o else alook m q := by
  induction parts generalizing m with
  | nil => simp
  | cons p ps ih =>
    show alook (ps.foldl _ (aupd m p o)) q = _
    rw [ih]
    by_cases hq : q ∈ ps
    · simp [hq]
    · by_cases hqp : q = p
      · subst hqp
        simp [hq, alook_aupd_self]
      · simp [hq, hqp, alook_aupd_ne m p q o hqp]

lemma stagePartitions_alook (parts : List Int) (o : α) (q : Int) :
    alook (stagePartitions parts o) q = if q ∈ parts then some o else none := by
  unfold stagePartitions
  rw [stagePartitions_foldl_alook]
  simp [alook]

/-- `aupd` never produces the empty map. -/
lemma aupd_ne_nil {κ β : Type} [DecidableEq κ] (l : List (κ × β)) (k : κ) (v : β) :
    aupd l k v ≠ [] := by
  cases l with
  | nil => simp [aupd]
  | cons pr t => by_cases h : pr.1 = k <;> simp [aupd, h]

/-- The staged entry of a topology topic with exactly one pinned partition, in
either lookup mode: wanted-ness is whatever `wantTopic` (the embedded
topic/regex lookup) decides on the consumer's initial memo caches. -/
lemma stageAll_alook_pin (f : String → String → Bool) (d : directConsumer α)
    (topo : List (String × List Int)) (T : String) (parts : List Int) (p : Int) (op : α)
    (hnd : (topo.map Prod.fst).Nodup)
    (hm : (T, parts) ∈ topo) (hpins : alook d.partitions T = some [(p, op)]) :
    alook (stageAll f d topo).toUse T
      = some (match (wantTopic f d d.reTopics d.reIgnore T).1 with
              | some ot => aupd (stagePartitions parts ot) p op
              | none => aupd [] p op) := by
  rw [stageAll_eq_from]
  obtain ⟨pre, post, rfl⟩ := List.append_of_mem hm
  have hsplit : T ∉ pre.map Prod.fst ∧ T ∉ post.map Prod.fst := by
    rw [List.map_append, List.map_cons] at hnd
    rw [List.nodup_append] at hnd
    obtain ⟨h1, h2, h3⟩ := hnd
    rw [List.nodup_cons] at h2
    exact ⟨fun hx => h3 hx (List.mem_cons_self _ _), h2.1⟩
  rw [stageFoldFrom_append]
  rw [show stageFoldFrom f d (stageFoldFrom f d ⟨[], d.reTopics, d.reIgnore⟩ pre)
        ((T, parts) :: post)
      = stageFoldFrom f d
          (processTopic f d (stageFoldFrom f d ⟨[], d.reTopics, d.reIgnore⟩ pre) T parts)
          post from rfl]
  rw [stageFold_toUse_notmem f d _ post T hsplit.2]
  have htuPre : alook (stageFoldFrom f d ⟨[], d.reTopics, d.reIgnore⟩ pre).toUse T = none := by
    rw [stageFold_toUse_notmem f d _ pre T hsplit.1]
    rfl
  have hwant : (wantTopic f d
      (stageFoldFrom f d ⟨[], d.reTopics, d.reIgnore⟩ pre).reTopics
      (stageFoldFrom f d ⟨[], d.reTopics, d.reIgnore⟩ pre).reIgnore T).1
      = (wantTopic f d d.reTopics d.reIgnore T).1 :=
    (wantTopic_congr f d d _ d.reTopics _ d.reIgnore T rfl rfl
      (stageFold_reT_notmem f d ⟨[], d.reTopics, d.reIgnore⟩ pre T hsplit.1)
      (stageFold_reI_notmem f d ⟨[], d.reTopics, d.reIgnore⟩ pre T hsplit.1)).1
  simp only [processTopic]
  rw [hwant, hpins]
  cases hw : (wantTopic f d d.reTopics d.reIgnore T).1 with
  | some ot =>
    show alook (applyPins [(p, op)] T
      (aupd (stageFoldFrom f d ⟨[], d.reTopics, d.reIgnore⟩ pre).toUse T
        (stagePartitions parts ot))) T = _
    unfold applyPins
    rw [List.foldl_cons, List.foldl_nil]
    rw [alook_aupd_self]
    rw [alook_aupd_self]
    rfl
  | none =>
    show alook (applyPins [(p, op)] T
      (stageFoldFrom f d ⟨[], d.reTopics, d.reIgnore⟩ pre).toUse) T = _
    unfold applyPins
    rw [List.foldl_cons, List.foldl_nil]
    rw [alook_aupd_self, htuPre]
    rfl

end FindLemmas

/-! ## Claims C4-C8: the assignment engine -/

/-- C4: in regex mode, a topology topic in neither memo cache is tested against
the configured patterns in order (first match wins, via `firstMatch`), the
outcome is memoized (match into `reTopics`, non-match into `reIgnore`), after a
call every topology topic is memoized, and once every topology topic is
memoized the reconciliation result does not depend on the regex matcher at all
(so no previously-seen topic is ever re-tested). -/
theorem findNewAssignments_regex_memoization {α : Type} (f : String → String → Bool)
    (d : directConsumer α) (topo : List (String × List Int))
    (hre : d.regexTopics = true) (hnd : (topo.map Prod.fst).Nodup) :
    (∀ t parts, (t, parts) ∈ topo → alook d.reTopics t = none → t ∉ d.reIgnore →
      alook ((findNewAssignments f d topo).1).reTopics t = firstMatch f d.topics t
      ∧ (firstMatch f d.topics t = none → t ∈ ((findNewAssignments f d topo).1).reIgnore))
    ∧ (∀ t parts, (t, parts) ∈ topo →
      (alook ((findNewAssignments f d topo).1).reTopics t).isSome
        ∨ t ∈ ((findNewAssignments f d topo).1).reIgnore)
    ∧ (∀ g : String → String → Bool,
      (∀ t parts, (t, parts) ∈ topo → (alook d.reTopics t).isSome ∨ t ∈ d.reIgnore) →
      findNewAssignments f d topo = findNewAssignments g d topo) := by
  obtain ⟨-, -, -, -, -, hreT, hreI⟩ := findNewAssignments_spec f d topo
  rw [stageAll_eq_from] at hreT hreI
  refine ⟨?_, ?_, ?_⟩
  · intro t parts hm ha hi
    have hmm := stageFold_memo_mem f d ⟨[], d.reTopics, d.reIgnore⟩ topo t parts hnd hm
    rw [hreT, hmm.1, hreI]
    constructor
    · simp only [wantTopic, hre, if_true, ha]
      simp only [hi, if_false]
      cases hfm : firstMatch f d.topics t with
      | some o => exact alook_aupd_self _ _ _
      | none => exact ha
    · intro hfm
      rw [hmm.2]
      simp only [wantTopic, hre, if_true, ha, hi, if_false, hfm]
      simp
  · intro t parts hm
    have hmm := stageFold_memo_mem f d ⟨[], d.reTopics, d.reIgnore⟩ topo t parts hnd hm
    rw [hreT, hmm.1, hreI, hmm.2]
    cases ha : alook d.reTopics t with
    | some o =>
      left
      simp only [wantTopic, hre, if_true, ha]
      rfl
    | none =>
      by_cases hi : t ∈ d.reIgnore
      · right
        simp only [wantTopic, hre, if_true, ha, hi, if_true]
      · cases hfm : firstMatch f d.topics t with
        | some o =>
          left
          simp only [wantTopic, hre, if_true, ha, hi, if_false, hfm]
          rw [alook_aupd_self]
          rfl
        | none =>
          right
          simp only [wantTopic, hre, if_true, ha, hi, if_false, hfm]
          simp
  · intro g hmemo
    have hs : stageAll f d topo = stageAll g d topo := by
      rw [stageAll_eq_from, stageAll_eq_from]
      exact stageFold_fun_congr f g d _ topo
        (fun tp h => hmemo tp.1 tp.2 (show (tp.1, tp.2) ∈ topo from h))
    unfold findNewAssignments
    rw [hs]

/-- Regex consumer and matchers used by the engine witnesses. -/
def cexMatch : String → String → Bool := fun _ _ => false

def cexTrue : String → String → Bool := fun _ _ => true

def wRegD : directConsumer Nat := ⟨[("a", 7)], [], true, [], [], []⟩

/-- Witness for the C4 theorem: the first reconciliation memoizes the topic's
first-match outcome. -/
theorem findNewAssignments_regex_memoization_witness :
    alook ((findNewAssignments cexTrue wRegD [("x", [0])]).1).reTopics "x"
      = firstMatch cexTrue wRegD.topics "x" :=
  ((findNewAssignments_regex_memoization cexTrue wRegD [("x", [0])] (by decide)
    (by decide)).1 "x" [0] (by decide) (by decide) (by decide)).1

/-- Fresh direct (non-regex) consumer wanting topic `"t"`. -/
def cexConsumer : directConsumer Nat := ⟨[("t", 0)], [], false, [], [], []⟩

/-- State after one reconciliation against a two-partition topology. -/
def cexD1 : directConsumer Nat := (findNewAssignments cexMatch cexConsumer [("t", [0, 1])]).1

/-- C5 counterexample: after the topology shrinks to a single already-used
partition, a call returns the non-nil delta `[("t", [])]`, and the immediately
following call with the identical topology again returns the non-nil
`[("t", [])]` instead of nil — refuting the claim as stated. -/
theorem findNewAssignments_idempotence_cex :
    (findNewAssignments cexMatch cexD1 [("t", [0])]).2 = some [("t", [])]
    ∧ (findNewAssignments cexMatch (findNewAssignments cexMatch cexD1 [("t", [0])]).1
        [("t", [0])]).2 = some [("t", [])] := by
  constructor <;> rfl

/-- C5 (amended): after a call that returns a non-nil delta, an immediately
following call with the identical topology returns either nil or a delta all
of whose per-topic partition maps are empty — so no (topic, partition, offset)
triple is ever offered twice (the original claim's "always returns nil" fails
only on the empty-map topics exhibited by the counterexample). -/
theorem findNewAssignments_idempotence_amended {α : Type} (f : String → String → Bool)
    (d d1 : directConsumer α) (topo : List (String × List Int))
    (δ1 : List (String × List (Int × α)))
    (hndt : (topo.map Prod.fst).Nodup) (hndu : ((d.«using»).map Prod.fst).Nodup)
    (h1 : findNewAssignments f d topo = (d1, some δ1)) :
    ∀ l, (findNewAssignments f d1 topo).2 = some l → ∀ pr ∈ l, pr.2 = [] := by
  intro l hl pr hpr
  obtain ⟨hδ, hU, hT, hP, hR, hreT, hreI⟩ := findNewAssignments_spec f d topo
  have h1a : (findNewAssignments f d topo).1 = d1 := by rw [h1]
  have h1b : (findNewAssignments f d topo).2 = some δ1 := by rw [h1]
  by_cases hemp : (subtractUsing d.«using» (stageAll f d topo).toUse).isEmpty
  · rw [h1b] at hδ
    rw [if_pos hemp] at hδ
    exact absurd hδ (by simp)
  · have hU1 : d1.«using»
        = mergeUsing d.«using» (subtractUsing d.«using» (stageAll f d topo).toUse) := by
      rw [← h1a, hU, if_neg hemp]
    obtain ⟨hδ2, -, -, -, -, -, -⟩ := findNewAssignments_spec f d1 topo
    have htu2 : (stageAll f d1 topo).toUse = (stageAll f d topo).toUse := by
      rw [← h1a]
      exact find_toUse_stable f d topo hndt
    rw [htu2] at hδ2
    rw [hl] at hδ2
    by_cases hemp2 : (subtractUsing d1.«using» (stageAll f d topo).toUse).isEmpty
    · rw [if_pos hemp2] at hδ2
      exact absurd hδ2 (by simp)
    · rw [if_neg hemp2] at hδ2
      have hleq : l = subtractUsing d1.«using» (stageAll f d topo).toUse := by
        simpa using hδ2
      have hknd_tu : (((stageAll f d topo).toUse).map Prod.fst).Nodup :=
        stageAll_toUse_keys_nodup f d topo
      have hknd_s0 :
          ((subtractUsing d.«using» (stageAll f d topo).toUse).map Prod.fst).Nodup :=
        subtractUsing_keys_nodup _ _ hknd_tu
      have hknd_u1 : ((d1.«using»).map Prod.fst).Nodup := by
        rw [hU1]
        exact mergeUsing_keys_nodup _ _ hndu
      have hknd_l : (l.map Prod.fst).Nodup := by
        rw [hleq]
        exact subtractUsing_keys_nodup _ _ hknd_tu
      have halookl : alook l pr.1 = some pr.2 :=
        mem_alook_of_nodup _ _ _ hknd_l (show (pr.1, pr.2) ∈ _ from hpr)
      rw [hleq] at halookl
      cases hu1 : alook d1.«using» pr.1 with
      | none =>
        cases htum : alook (stageAll f d topo).toUse pr.1 with
        | none =>
          have hred : alook (subtractUsing d1.«using» (stageAll f d topo).toUse) pr.1
              = none := by
            rw [alook_subtractUsing d1.«using» _ pr.1 hknd_u1, hu1, htum]
          rw [hred] at halookl
          exact absurd halookl (by simp)
        | some m =>
          -- d1.using has no entry although the staged topic survived call 1
          have hred : alook (subtractUsing d1.«using» (stageAll f d topo).toUse) pr.1
              = some m := by
            rw [alook_subtractUsing d1.«using» _ pr.1 hknd_u1, hu1, htum]
          -- derive contradiction: merge must have created an entry for pr.1
          cases hdu : alook d.«using» pr.1 with
          | none =>
            have hs0 : alook (subtractUsing d.«using» (stageAll f d topo).toUse) pr.1
                = some m := by
              rw [alook_subtractUsing d.«using» _ pr.1 hndu, hdu, htum]
            have : alook d1.«using» pr.1 = some (m.foldl (fun s po => insertPart s po.1)
                ((alook d.«using» pr.1).getD [])) := by
              rw [hU1, alook_mergeUsing d.«using» _ pr.1 hknd_s0, hs0]
            rw [hu1] at this
            exact absurd this (by simp)
          | some ps0 =>
            by_cases hlen0 : ps0.length = m.length
            · have hs0 : alook (subtractUsing d.«using» (stageAll f d topo).toUse) pr.1
                  = none := by
                rw [alook_subtractUsing d.«using» _ pr.1 hndu, hdu, htum]
                simp [hlen0]
              have : alook d1.«using» pr.1 = alook d.«using» pr.1 := by
                rw [hU1, alook_mergeUsing d.«using» _ pr.1 hknd_s0, hs0]
              rw [hu1, hdu] at this
              exact absurd this (by simp)
            · have hs0 : alook (subtractUsing d.«using» (stageAll f d topo).toUse) pr.1
                  = some (eraseParts m ps0) := by
                rw [alook_subtractUsing d.«using» _ pr.1 hndu, hdu, htum]
                simp [hlen0]
              have : alook d1.«using» pr.1
                  = some ((eraseParts m ps0).foldl (fun s po => insertPart s po.1)
                      ((alook d.«using» pr.1).getD [])) := by
                rw [hU1, alook_mergeUsing d.«using» _ pr.1 hknd_s0, hs0]
              rw [hu1] at this
              exact absurd this (by simp)
      | some ps1 =>
        cases htum : alook (stageAll f d topo).toUse pr.1 with
        | none =>
          have hred : alook (subtractUsing d1.«using» (stageAll f d topo).toUse) pr.1
              = none := by
            rw [alook_subtractUsing d1.«using» _ pr.1 hknd_u1, hu1, htum]
          rw [hred] at halookl
          exact absurd halookl (by simp)
        | some m =>
          by_cases hlen : ps1.length = m.length
          · have hred : alook (subtractUsing d1.«using» (stageAll f d topo).toUse) pr.1
                = none := by
              rw [alook_subtractUsing d1.«using» _ pr.1 hknd_u1, hu1, htum]
              simp [hlen]
            rw [hred] at halookl
            exact absurd halookl (by simp)
          · have hred : alook (subtractUsing d1.«using» (stageAll f d topo).toUse) pr.1
                = some (eraseParts m ps1) := by
              rw [alook_subtractUsing d1.«using» _ pr.1 hknd_u1, hu1, htum]
              simp [hlen]
            rw [hred] at halookl
            have hpr2 : pr.2 = eraseParts m ps1 := by
              simpa using halookl.symm
            rw [hpr2]
            apply eraseParts_eq_nil
            intro po hpo
            cases hs0v : alook (subtractUsing d.«using» (stageAll f d topo).toUse) pr.1 with
            | none =>
              -- then d1.using at pr.1 = d.using at pr.1 = some ps1, and subtraction
              -- of call 1 erased the whole topic: ps1.length = m.length, contradiction
              have hmer : alook d1.«using» pr.1 = alook d.«using» pr.1 := by
                rw [hU1, alook_mergeUsing d.«using» _ pr.1 hknd_s0, hs0v]
              rw [hu1] at hmer
              have hdu : alook d.«using» pr.1 = some ps1 := hmer.symm
              have hs0' : alook (subtractUsing d.«using» (stageAll f d topo).toUse) pr.1
                  = if ps1.length = m.length then none else some (eraseParts m ps1) := by
                rw [alook_subtractUsing d.«using» _ pr.1 hndu, hdu, htum]
              rw [hs0v, if_neg hlen] at hs0'
              exact absurd hs0' (by simp)
            | some m1 =>
              have hmer : alook d1.«using» pr.1
                  = some (m1.foldl (fun s po => insertPart s po.1)
                      ((alook d.«using» pr.1).getD [])) := by
                rw [hU1, alook_mergeUsing d.«using» _ pr.1 hknd_s0, hs0v]
              rw [hu1] at hmer
              have hps1 : ps1 = m1.foldl (fun s po => insertPart s po.1)
                  ((alook d.«using» pr.1).getD []) := by
                simpa using hmer
              cases hdu : alook d.«using» pr.1 with
              | none =>
                have hs0' : alook (subtractUsing d.«using» (stageAll f d topo).toUse) pr.1
                    = some m := by
                  rw [alook_subtractUsing d.«using» _ pr.1 hndu, hdu, htum]
                rw [hs0v] at hs0'
                have hm1 : m1 = m := by simpa using hs0'
                rw [hps1, hdu, hm1]
                exact mem_insertPartFold m [] po.1 (Or.inr ⟨po.2, hpo⟩)
              | some ps0 =>
                by_cases hlen0 : ps0.length = m.length
                · have hs0' : alook (subtractUsing d.«using» (stageAll f d topo).toUse) pr.1
                      = none := by
                    rw [alook_subtractUsing d.«using» _ pr.1 hndu, hdu, htum]
                    simp [hlen0]
                  rw [hs0v] at hs0'
                  exact absurd hs0' (by simp)
                · have hs0' : alook (subtractUsing d.«using» (stageAll f d topo).toUse) pr.1
                      = some (eraseParts m ps0) := by
                    rw [alook_subtractUsing d.«using» _ pr.1 hndu, hdu, htum]
                    simp [hlen0]
                  rw [hs0v] at hs0'
                  have hm1 : m1 = eraseParts m ps0 := by simpa using hs0'
                  rw [hps1, hdu, hm1]
                  by_cases hin : po.1 ∈ ps0
                  · exact mem_insertPartFold _ _ _ (Or.inl hin)
                  · exact mem_insertPartFold _ _ _
                      (Or.inr ⟨po.2, (mem_eraseParts m ps0 po).mpr ⟨hpo, hin⟩⟩)

/-- Witness for the amended C5 theorem on the shrinking-topology scenario. -/
theorem findNewAssignments_idempotence_amended_witness :
    (("t", ([] : List (Int × Nat)))).2 = [] :=
  findNewAssignments_idempotence_amended cexMatch cexD1
    (findNewAssignments cexMatch cexD1 [("t", [0])]).1 [("t", [0])] [("t", [])]
    (by decide) (by decide) (by decide) [("t", [])] (by decide) ("t", []) (by decide)

/-- C6: the using map only gains pairs across any sequence of reconciliations
with arbitrary topologies, and a (topic, partition) pair already in the using
map never appears in a call's returned delta. -/
theorem findNewAssignments_using_monotone {α : Type} (f : String → String → Bool)
    (d : directConsumer α) (topo : List (String × List Int)) (t : String) (p : Int)
    (hwf : ((d.«using»).map Prod.fst).Nodup)
    (h : pairMem d.«using» t p) :
    (∀ topos : List (List (String × List Int)), pairMem ((runAll f d topos).«using») t p)
    ∧ (∀ l, (findNewAssignments f d topo).2 = some l → ¬ pairMemD l t p) := by
  have mono : ∀ (topos : List (List (String × List Int))) (d' : directConsumer α),
      pairMem d'.«using» t p → pairMem ((runAll f d' topos).«using») t p := by
    intro topos
    induction topos with
    | nil => exact fun d' hd' => hd'
    | cons tp rest ih =>
      intro d' hd'
      exact ih _ (find_using_mono f d' tp t p hd')
  constructor
  · intro topos
    exact mono topos d h
  · intro l hl hmem
    obtain ⟨hδ, -, -, -, -, -, -⟩ := findNewAssignments_spec f d topo
    rw [hl] at hδ
    by_cases hemp : (subtractUsing d.«using» (stageAll f d topo).toUse).isEmpty
    · rw [if_pos hemp] at hδ
      exact absurd hδ (by simp)
    · rw [if_neg hemp] at hδ
      have hleq : l = subtractUsing d.«using» (stageAll f d topo).toUse := by
        simpa using hδ
      obtain ⟨m, halm, o, hmo⟩ := hmem
      obtain ⟨ps, haps, hp⟩ := h
      rw [hleq, alook_subtractUsing d.«using» _ t hwf, haps] at halm
      cases htum : alook (stageAll f d topo).toUse t with
      | none =>
        rw [htum] at halm
        exact absurd halm (by simp)
      | some mm =>
        rw [htum] at halm
        by_cases hlen : ps.length = mm.length
        · simp [hlen] at halm
        · simp [hlen] at halm
          rw [← halm] at hmo
          exact absurd hp ((mem_eraseParts mm ps (p, o)).mp hmo).2

/-- Consumer with one partition already in the using map, for the C6 witness. -/
def wMonoD : directConsumer Nat := ⟨[("t", 0)], [], false, [], [], [("t", [0])]⟩

/-- Witness for the C6 theorem: the used pair survives a reconciliation. -/
theorem findNewAssignments_using_monotone_witness :
    pairMem ((runAll cexMatch wMonoD [[("t", [0, 1])]]).«using») "t" 0 :=
  (findNewAssignments_using_monotone cexMatch wMonoD [("t", [0, 1])] "t" 0 (by decide)
    ⟨[0], by decide, by decide⟩).1 [[("t", [0, 1])]]

/-- C7 (amended): a call returns nil exactly when nothing remains staged after
the code's subtraction phase, a nil-returning call leaves the using map
unchanged, and a non-nil delta contains at least one topic entry (but, as the
counterexample shows, possibly zero (topic, partition, offset) triples). -/
theorem findNewAssignments_empty_result {α : Type} (f : String → String → Bool)
    (d : directConsumer α) (topo : List (String × List Int)) :
    ((findNewAssignments f d topo).2 = none
        ↔ subtractUsing d.«using» (stageAll f d topo).toUse = [])
    ∧ ((findNewAssignments f d topo).2 = none
        → ((findNewAssignments f d topo).1).«using» = d.«using»)
    ∧ (∀ l, (findNewAssignments f d topo).2 = some l → l ≠ []) := by
  obtain ⟨hδ, hU, -, -, -, -, -⟩ := findNewAssignments_spec f d topo
  by_cases hemp : (subtractUsing d.«using» (stageAll f d topo).toUse).isEmpty
  · rw [if_pos hemp] at hδ hU
    refine ⟨?_, fun _ => hU, ?_⟩
    · simp [hδ, List.isEmpty_iff.mp hemp]
    · intro l hl
      rw [hδ] at hl
      exact absurd hl (by simp)
  · rw [if_neg hemp] at hδ hU
    refine ⟨?_, fun hn => absurd (hδ ▸ hn) (by simp), ?_⟩
    · simp only [hδ]
      constructor
      · intro hc
        exact absurd hc (by simp)
      · intro hc
        exact absurd (List.isEmpty_iff.mpr hc) hemp
    · intro l hl
      rw [hδ] at hl
      have hx : subtractUsing d.«using» (stageAll f d topo).toUse = l := by simpa using hl
      rw [← hx]
      intro hc
      exact hemp (List.isEmpty_iff.mpr hc)

/-- Consumer wanting a topic that currently has no partitions (C7 cex). -/
def wC7D : directConsumer Nat := ⟨[("t", 0)], [], false, [], [], []⟩

/-- C7 counterexample: a non-nil delta whose only topic entry carries zero
(topic, partition, offset) triples — refuting "a non-nil delta always contains
at least one triple". -/
theorem findNewAssignments_empty_delta_cex :
    (findNewAssignments cexMatch wC7D [("t", [])]).2 = some [("t", [])]
    ∧ [(("t" : String), ([] : List (Int × Nat)))].all (fun pr => pr.2.isEmpty) = true := by
  constructor <;> rfl

/-- C8 (amended): in either lookup mode, for a topology topic `T` with one
explicitly pinned partition `(p, op)` and, as the counterexample forces, no
partition of `T` in the using map (no using entry for `T`, or an empty one):
if the topic/regex lookup (`wantTopic`) wants `T` at `ot` the delta stages `p`
at `op` and every other visible partition at `ot`; the pin also applies when
`T` is not wanted at all. The last two conjuncts pin down `wantTopic` itself:
in direct mode it is the `d.topics` lookup, in regex mode (nothing memoized)
it is the first-pattern match. -/
theorem findNewAssignments_pin_precedence {α : Type} (f : String → String → Bool)
    (d : directConsumer α) (topo : List (String × List Int)) (T : String)
    (parts : List Int) (p : Int) (op : α)
    (hnd : (topo.map Prod.fst).Nodup)
    (hT : (T, parts) ∈ topo)
    (hpins : alook d.partitions T = some [(p, op)])
    (husing : alook d.«using» T = none ∨ alook d.«using» T = some [])
    (hknd : ((d.«using»).map Prod.fst).Nodup) :
    (∀ ot, (wantTopic f d d.reTopics d.reIgnore T).1 = some ot →
      ∃ l m, (findNewAssignments f d topo).2 = some l ∧ alook l T = some m
        ∧ alook m p = some op
        ∧ ∀ q ∈ parts, q ≠ p → alook m q = some ot)
    ∧ ((wantTopic f d d.reTopics d.reIgnore T).1 = none →
      ∃ l m, (findNewAssignments f d topo).2 = some l ∧ alook l T = some m
        ∧ alook m p = some op)
    ∧ (d.regexTopics = false →
      (wantTopic f d d.reTopics d.reIgnore T).1 = alook d.topics T)
    ∧ (d.regexTopics = true → alook d.reTopics T = none → T ∉ d.reIgnore →
      (wantTopic f d d.reTopics d.reIgnore T).1 = firstMatch f d.topics T) := by
  obtain ⟨hδ, -, -, -, -, -, -⟩ := findNewAssignments_spec f d topo
  have hstage := stageAll_alook_pin f d topo T parts p op hnd hT hpins
  have hcore : ∀ mval : List (Int × α),
      alook (stageAll f d topo).toUse T = some mval → mval ≠ [] →
      (findNewAssignments f d topo).2
          = some (subtractUsing d.«using» (stageAll f d topo).toUse)
      ∧ alook (subtractUsing d.«using» (stageAll f d topo).toUse) T = some mval := by
    intro mval hst hmne
    have hsub : alook (subtractUsing d.«using» (stageAll f d topo).toUse) T
        = some mval := by
      rcases husing with hu | hu
      · rw [alook_subtractUsing d.«using» _ T hknd, hu, hst]
      · rw [alook_subtractUsing d.«using» _ T hknd, hu, hst]
        have hlen : ¬ ([] : List Int).length = mval.length := by
          intro h
          exact hmne (List.length_eq_zero.mp h.symm)
        show (if ([] : List Int).length = mval.length then none
              else some (eraseParts mval [])) = some mval
        rw [if_neg hlen]
        rfl
    have hnonempty : ¬ (subtractUsing d.«using» (stageAll f d topo).toUse).isEmpty := by
      intro hc
      rw [List.isEmpty_iff.mp hc] at hsub
      exact absurd hsub (by simp [alook])
    rw [if_neg hnonempty] at hδ
    exact ⟨hδ, hsub⟩
  refine ⟨?_, ?_, ?_, ?_⟩
  · intro ot hot
    have hst : alook (stageAll f d topo).toUse T
        = some (aupd (stagePartitions parts ot) p op) := by
      rw [hstage, hot]
    obtain ⟨hδ', hsub⟩ := hcore _ hst (aupd_ne_nil _ _ _)
    refine ⟨_, _, hδ', hsub, alook_aupd_self _ _ _, ?_⟩
    intro q hq hqp
    rw [alook_aupd_ne _ _ _ _ hqp, stagePartitions_alook]
    simp [hq]
  · intro hot
    have hst : alook (stageAll f d topo).toUse T = some (aupd [] p op) := by
      rw [hstage, hot]
    obtain ⟨hδ', hsub⟩ := hcore _ hst (aupd_ne_nil _ _ _)
    exact ⟨_, _, hδ', hsub, alook_aupd_self _ _ _⟩
  · intro hre
    simp [wantTopic, hre]
  · intro hre ha hi
    simp only [wantTopic, hre, if_true, ha, hi, if_false]
    cases hfm : firstMatch f d.topics T <;> rfl

/-- Consumer whose using map holds a stale partition of `"t"` (C8 cex). -/
def wC8D : directConsumer Nat := ⟨[("t", 0)], [("t", [(0, 9)])], false, [], [], [("t", [5])]⟩

/-- C8 counterexample: topic `"t"` is wanted, partition 0 is pinned at offset 9
and `("t", 0)` is not in the using map, yet the returned delta is nil (the
size-equality fast path dropped the whole topic) — refuting the claim as
stated. -/
theorem findNewAssignments_pin_cex :
    alook wC8D.«using» "t" = some [(5 : Int)]
    ∧ ((0 : Int) ∈ [(5 : Int)]) = False
    ∧ alook wC8D.partitions "t" = some [((0 : Int), (9 : Nat))]
    ∧ alook wC8D.topics "t" = some 0
    ∧ (findNewAssignments cexMatch wC8D [("t", [0])]).2 = none := by
  refine ⟨rfl, by simp, rfl, rfl, rfl⟩

/-- Consumer with a pin and an empty using map, for the C8 witness. -/
def wC8G : directConsumer Nat := ⟨[("t", 0)], [("t", [(0, 9)])], false, [], [], []⟩

/-- Witness for the amended C8 theorem: the pinned partition is staged at its
own offset, the sibling at the topic offset. -/
theorem findNewAssignments_pin_precedence_witness :
    ∃ l m, (findNewAssignments cexMatch wC8G [("t", [0, 1])]).2 = some l
      ∧ alook l "t" = some m ∧ alook m 0 = some 9
      ∧ ∀ q ∈ [(0 : Int), 1], q ≠ 0 → alook m q = some 0 :=
  (findNewAssignments_pin_precedence cexMatch wC8G [("t", [0, 1])] "t" [0, 1] 0 9
    (by decide) (by decide) (by decide) (Or.inl (by decide)) (by decide)).1 0 (by decide)

/-! ## Claims C9-C10: the partitioner framework -/

/-- `leastBackupTopicPartitioner.OnNewBatch`: clears the pin. -/
def leastBackupOnNewBatch (_onPart : Int) : Int := -1

/-- The scan loop of `PartitionByBackup`: `f i` is the result of the (i+1)-th
`backupFn()` invocation; the accumulator is `(leastBackup, onPart)`. -/
def lbScan (f : Nat → Int × Int) : Nat → Nat → Int × Int → Int × Int
  | _, 0, acc => acc
  | i, k + 1, acc =>
    let pb := f i
    lbScan f (i + 1) k (if pb.2 < acc.1 then (pb.2, pb.1) else acc)

/-- `leastBackupTopicPartitioner.PartitionByBackup`: keep a valid pin, else
scan all `n` partitions starting from `leastBackup = math.MaxInt64`; the
result is the new pin. -/
def partitionByBackup (onPart : Int) (n : Nat) (f : Nat → Int × Int) : Int :=
  if onPart = -1 ∨ (n : Int) ≤ onPart then (lbScan f 0 n (2 ^ 63 - 1, onPart)).2
  else onPart

lemma lbScan_congr (f1 f2 : Nat → Int × Int) :
    ∀ (k i : Nat) (acc : Int × Int), (∀ j, i ≤ j → j < i + k → f1 j = f2 j) →
      lbScan f1 i k acc = lbScan f2 i k acc := by
  intro k
  induction k with
  | zero => intro i acc _; rfl
  | succ k ih =>
    intro i acc h
    show lbScan f1 (i + 1) k _ = lbScan f2 (i + 1) k _
    rw [h i (le_refl _) (by omega)]
    exact ih (i + 1) _ (fun j h1 h2 => h j (by omega) (by omega))

lemma lbScan_min (g : Nat → Int) :
    ∀ (k i : Nat) (least pick : Int),
      (lbScan (fun j => ((j : Int), g j)) i k (least, pick) = (least, pick)
        ∧ ∀ j, i ≤ j → j < i + k → least ≤ g j)
      ∨ (∃ j, i ≤ j ∧ j < i + k
          ∧ lbScan (fun j => ((j : Int), g j)) i k (least, pick) = (g j, (j : Int))
          ∧ g j < least
          ∧ (∀ j', i ≤ j' → j' < j → g j < g j')
          ∧ (∀ j', i ≤ j' → j' < i + k → g j ≤ g j')) := by
  intro k
  induction k with
  | zero =>
    intro i least pick
    exact Or.inl ⟨rfl, fun j h1 h2 => absurd h2 (by omega)⟩
  | succ k ih =>
    intro i least pick
    have hstep : lbScan (fun j => ((j : Int), g j)) i (k + 1) (least, pick)
        = lbScan (fun j => ((j : Int), g j)) (i + 1) k
            (if g i < least then (g i, (i : Int)) else (least, pick)) := rfl
    rw [hstep]
    by_cases hlt : g i < least
    · rw [if_pos hlt]
      rcases ih (i + 1) (g i) (i : Int) with ⟨hr, hall⟩ | ⟨j, hij, hjk, hr, hlt2, hearly, hall⟩
      · refine Or.inr ⟨i, le_refl _, by omega, hr, hlt, fun j' h1 h2 => absurd h2 (by omega),
          fun j' h1 h2 => ?_⟩
        by_cases hj' : j' = i
        · subst hj'; exact le_refl _
        · exact hall j' (by omega) (by omega)
      · refine Or.inr ⟨j, by omega, by omega, hr, lt_trans hlt2 hlt, fun j' h1 h2 => ?_,
          fun j' h1 h2 => ?_⟩
        · by_cases hj' : j' = i
          · subst hj'; exact hlt2
          · exact hearly j' (by omega) h2
        · by_cases hj' : j' = i
          · subst hj'; exact le_of_lt hlt2
          · exact hall j' (by omega) (by omega)
    · rw [if_neg hlt]
      rcases ih (i + 1) least pick with ⟨hr, hall⟩ | ⟨j, hij, hjk, hr, hlt2, hearly, hall⟩
      · refine Or.inl ⟨hr, fun j h1 h2 => ?_⟩
        by_cases hj : j = i
        · subst hj; omega
        · exact hall j (by omega) (by omega)
      · refine Or.inr ⟨j, by omega, by omega, hr, hlt2, fun j' h1 h2 => ?_,
          fun j' h1 h2 => ?_⟩
        · by_cases hj' : j' = i
          · subst hj'; omega
          · exact hearly j' (by omega) h2
        · by_cases hj' : j' = i
          · subst hj'; omega
          · exact hall j' (by omega) (by omega)

/-- The claim's example counts `{0:5, 1:2, 2:2, 3:9}`. -/
def exCounts : Nat → Int := fun i => [5, 2, 2, 9].getD i 0

/-- C9: when unpinned or invalidly pinned, `PartitionByBackup` consults only
the first `n` callback results, returns the index with the minimum buffered
count with ties broken by the first minimum in scan order (for counts
`{0:5, 1:2, 2:2, 3:9}` it selects 1); a valid pin is returned unchanged
without consulting the callback, and `OnNewBatch` resets the pin. -/
theorem partitionByBackup_spec (onPart : Int) (n : Nat) (g : Nat → Int)
    (hscan : onPart = -1 ∨ (n : Int) ≤ onPart)
    (hn : 0 < n) (hbound : ∀ k, k < n → g k < 2 ^ 63 - 1) :
    (∀ f1 f2 : Nat → Int × Int, (∀ i, i < n → f1 i = f2 i) →
      partitionByBackup onPart n f1 = partitionByBackup onPart n f2)
    ∧ (∃ j : Nat, partitionByBackup onPart n (fun i => ((i : Int), g i)) = j
        ∧ j < n ∧ (∀ k, k < n → g j ≤ g k) ∧ (∀ k, k < j → g j < g k))
    ∧ (∀ (onPart' : Int) (f : Nat → Int × Int),
        ¬ (onPart' = -1 ∨ (n : Int) ≤ onPart') → partitionByBackup onPart' n f = onPart')
    ∧ leastBackupOnNewBatch onPart = -1
    ∧ partitionByBackup (-1) 4 (fun i => ((i : Int), exCounts i)) = 1 := by
  refine ⟨?_, ?_, ?_, rfl, by decide⟩
  · intro f1 f2 hagree
    unfold partitionByBackup
    rw [lbScan_congr f1 f2 n 0 _ (fun j h1 h2 => hagree j (by omega))]
  · rcases lbScan_min g n 0 (2 ^ 63 - 1) onPart
      with ⟨hr, hall⟩ | ⟨j, hij, hjk, hr, hlt2, hearly, hall⟩
    · exact absurd (hall 0 (le_refl _) (by omega)) (by have := hbound 0 hn; omega)
    · refine ⟨j, ?_, by omega, fun k hk => hall k (by omega) (by omega),
        fun k hk => hearly k (by omega) hk⟩
      unfold partitionByBackup
      rw [if_pos hscan, hr]
  · intro onPart' f h
    unfold partitionByBackup
    rw [if_neg h]

/-- Witness for the C9 theorem at the claim's concrete counts. -/
theorem partitionByBackup_spec_witness :
    ∃ j : Nat, partitionByBackup (-1) 4 (fun i => ((i : Int), exCounts i)) = j
      ∧ j < 4 ∧ (∀ k, k < 4 → exCounts j ≤ exCounts k)
      ∧ (∀ k, k < j → exCounts j < exCounts k) :=
  (partitionByBackup_spec (-1) 4 exCounts (Or.inl rfl) (by decide)
    (fun k hk => by interval_cases k <;> decide)).2.1

/-- Go's `SaramaHasher`: `p := int(hashFn(key)) % n; if p < 0 { p = -p }`.
`int` is 64-bit, so the `uint32` hash is zero-extended and `p` is never
negative; `%` is Go's truncated remainder (`Int.tmod`). -/
def saramaHasher (hashFn : List Nat → Nat) (key : List Nat) (n : Int) : Int :=
  let p := ((hashFn key % 2 ^ 32 : Nat) : Int).tmod n
  if p < 0 then -p else p

/-- The spec's description of `SaramaHasher`: take the hash's absolute value
via sign-flip, interpreting the 32-bit hash as signed, before the modulo:
`|int32(hashFn(key))| mod n`. -/
def saramaHasherSpec (hashFn : List Nat → Nat) (key : List Nat) (n : Int) : Int :=
  (((toInt32 (hashFn key)).natAbs : Int)).tmod n

/-- C10 (code bug): for hash `0x80000001` and `n = 3` the code returns `0`
while the spec's (and Sarama's) sign-flip arithmetic returns `1`; the sign-flip
branch of the code is unreachable because a `uint32` converted to Go's 64-bit
`int` is never negative. -/
theorem saramaHasher_divergence :
    saramaHasher (fun _ => 2147483649) [] 3 = 0
    ∧ saramaHasherSpec (fun _ => 2147483649) [] 3 = 1
    ∧ saramaHasher (fun _ => 2147483649) [] 3 ≠ saramaHasherSpec (fun _ => 2147483649) [] 3
    ∧ (∀ hashFn key n, (0 : Int) < n →
        saramaHasher hashFn key n = ((hashFn key % 2 ^ 32 : Nat) : Int).tmod n) := by
  refine ⟨by decide, by decide, by decide, ?_⟩
  intro hashFn key n hn
  unfold saramaHasher
  rw [if_neg]
  simp only [not_lt]
  exact Int.tmod_nonneg _ (by positivity)

/-- Witness for the amended C7 theorem: the non-nil delta of the counterexample
scenario is indeed a non-empty list of topic entries. -/
theorem findNewAssignments_empty_result_witness :
    ([(("t" : String), ([] : List (Int × Nat)))] : List (String × List (Int × Nat))) ≠ [] :=
  (findNewAssignments_empty_result cexMatch wC7D [("t", [])]).2.2 [("t", [])] rfl

/-- Witness for the C10 theorem: at the failing input the code path reduces to
a plain unsigned modulo. -/
theorem saramaHasher_divergence_witness :
    saramaHasher (fun _ => 2147483649) [] 3 = ((2147483649 % 2 ^ 32 : Nat) : Int).tmod 3 :=
  saramaHasher_divergence.2.2.2 (fun _ => 2147483649) [] 3 (by decide)
